import Mathlib

/-!
# realtime-docs: fan-out and persistence pipeline

A shallow embedding of `backend/internal/ws` (hub.go, room.go, conn.go,
redis_bus.go) and of `backend/pkg/ratelimit` (ratelimit.go): the debounced
save loop, the read loop of `Hub.ServeWS`, rooms, the hub registry, the bus
subscription and the per-address rate limiter, followed by the properties
established about them.

Conventions.
* Instants and durations are numbers of nanoseconds, as in Go's
  `time.Duration`: natural numbers in the save loop, integers in the rate
  limiter, whose `per` is an arbitrary `time.Duration`.
* A value of type `[]byte` is a `Frame`; where the code tests a slice
  against `nil` the slice is an `Option Frame` with `none` for `nil`.
* A pointer `*Room` or `*Conn` is a natural number; two pointers are the
  same instance when the numbers are equal.
* A buffered channel is the list of values it holds, oldest first.
* Every critical section (a method body run under a mutex, one channel
  operation, one `select` case) is one atomic step.
-/

namespace RealtimeDocs

/-! ## Data -/

/-- One byte of a frame. -/
abbrev Byte := Fin 256

/-- The contents of a `[]byte`: a websocket frame or a snapshot payload. -/
abbrev Frame := List Byte

/-- Go's `time.Millisecond`, in nanoseconds. -/
def Millisecond : Nat := 1000000

/-- The constant `debounceDur = 250 * time.Millisecond` of hub.go:77. -/
def debounceDur : Nat := 250 * Millisecond

/-! ## The debounced save loop (hub.go:75-103) -/

/-- One call `h.db.SaveDoc(ctx, id, blob)`, stamped with the instant at which
the loop issues it. -/
structure SaveCall where
  time : Nat
  id : String
  blob : Frame
deriving DecidableEq, Repr

/-- The variables of the goroutine started at hub.go:76.

`timer = some e` stands for a timer that was armed by `Reset` to expire at
instant `e` and whose expiry has not been received from `timer.C` yet;
`timer = none` is a stopped timer with an empty channel, which is what
`time.NewTimer` followed by `if !timer.Stop() { <-timer.C }` leaves.
`clock` is the instant at which the loop last came back to its `select`. -/
structure SaveLoop where
  docID : String
  latest : Option Frame
  timer : Option Nat
  clock : Nat
  exited : Bool
deriving DecidableEq, Repr

/-- The loop as it stands when it first reaches the `select` (hub.go:77-82),
the goroutine having started at instant `start`. -/
def SaveLoop.init (docID : String) (start : Nat) : SaveLoop :=
  { docID := docID, latest := none, timer := none, clock := start, exited := false }

/-- The case of the `select` that is taken, with the instant at which it is
taken.
* `recv now b`: `case b, ok := <-c.Saves()` with `ok = true`;
* `closed now`: the same case with `ok = false`;
* `timerC now saveDur`: `case <-timer.C`; `saveDur` is the time `SaveDoc`
  takes to return when it is called;
* `done now`: `case <-ctx.Done()`. -/
inductive SaveEvent where
  | recv (now : Nat) (b : Option Frame)
  | closed (now : Nat)
  | timerC (now : Nat) (saveDur : Nat)
  | done (now : Nat)
deriving DecidableEq, Repr

/-- The instant of an event. -/
def SaveEvent.now : SaveEvent → Nat
  | .recv now _ => now
  | .closed now => now
  | .timerC now _ => now
  | .done now => now

/-- One iteration of the `for { select { ... } }` of hub.go:82-102.

The result is `none` when the event cannot happen in state `s`: the loop has
returned, the instant lies before the loop came back to the `select`, or
`timer.C` is received although the timer has not expired. Otherwise it is the
next state together with the `SaveDoc` calls issued by the iteration.

In the `recv` case `timer.Stop()` followed by the non-blocking drain of
`timer.C` leaves a stopped timer with an empty channel whatever the timer
was, and `timer.Reset(debounceDur)` arms it for `now + debounceDur`. -/
def SaveLoop.step (s : SaveLoop) (ev : SaveEvent) : Option (SaveLoop × List SaveCall) :=
  if s.exited = true ∨ ev.now < s.clock then none
  else
    match ev with
    | .recv now b =>
        some ({ s with latest := b, timer := some (now + debounceDur), clock := now }, [])
    | .closed now => some ({ s with clock := now, exited := true }, [])
    | .timerC now saveDur =>
        match s.timer with
        | none => none
        | some e =>
            if now < e then none
            else
              match s.latest with
              | some b =>
                  some ({ s with latest := none,
                                 timer := some (now + saveDur + debounceDur),
                                 clock := now + saveDur },
                        [{ time := now, id := s.docID, blob := b }])
              | none =>
                  some ({ s with timer := some (now + debounceDur), clock := now }, [])
    | .done now => some ({ s with clock := now, exited := true }, [])

/-- The loop run over a schedule of events; the `SaveDoc` calls are listed in
the order in which they are issued. -/
def SaveLoop.run (s : SaveLoop) : List SaveEvent → Option (SaveLoop × List SaveCall)
  | [] => some (s, [])
  | ev :: evs =>
      (s.step ev).bind fun r =>
        (SaveLoop.run r.1 evs).map fun q => (q.1, r.2 ++ q.2)

/-- The `recv` events of a burst of arrivals, each a (instant, payload) pair
whose payload is a non-nil slice. -/
def arrivals (arr : List (Nat × Frame)) : List SaveEvent :=
  arr.map fun a => SaveEvent.recv a.1 (some a.2)

/-! ## Connections (conn.go) -/

/-- Capacity of `Conn.out`: `make(chan []byte, 256)` in `NewConn`. -/
def outCap : Nat := 256

/-- Capacity of `Conn.saveQ`: `make(chan []byte, 64)` in `NewConn`. -/
def saveCap : Nat := 64

/-- The statement `select { case ch <- b: default: }` on a buffered channel of
capacity `cap`: the value is appended when the buffer has room and the
statement does nothing otherwise. -/
def trySend (cap : Nat) (ch : List Frame) (b : Frame) : List Frame :=
  if ch.length < cap then ch ++ [b] else ch

/-- The fields of `Conn` (conn.go:11-17), the socket `ws` being reduced to
whether the websocket connection is closed: `closed` holds from the moment
`Conn.Read` reports closed (conn.go:36-37, "Returns false if connection is
closed") and, at the latest, from the call of `Conn.Close`. -/
structure Conn where
  out : List Frame
  saveQ : List Frame
  docID : String
  rm : Nat
  closed : Bool
deriving DecidableEq, Repr

/-- `NewConn(ws, docID, rm)` (conn.go:28-34): both channels start empty. -/
def NewConn (docID : String) (rm : Nat) : Conn :=
  { out := [], saveQ := [], docID := docID, rm := rm, closed := false }

instance : Inhabited Conn := ⟨NewConn "" 0⟩

/-- `Conn.QueueSave` (conn.go:73): a non-blocking send on `saveQ`. -/
def Conn.QueueSave (c : Conn) (b : Frame) : Conn :=
  { c with saveQ := trySend saveCap c.saveQ b }

/-- `Conn.Close` (conn.go:76). -/
def Conn.Close (c : Conn) : Conn :=
  { c with closed := true }

/-! ## Rooms (room.go) -/

/-- The field `clients map[*Conn]struct{}` of `Room`: its keys, listed in the
order in which a `range` visits them. -/
structure Room where
  clients : List Nat
deriving DecidableEq, Repr

/-- `NewRoom()` (room.go:11). -/
def NewRoom : Room := { clients := [] }

/-- `Room.Join` (room.go:17-21): `r.clients[c] = struct{}{}`. -/
def Room.Join (r : Room) (c : Nat) : Room :=
  if c ∈ r.clients then r else { clients := r.clients ++ [c] }

/-- `Room.Leave` (room.go:24-28): `delete(r.clients, c)`. -/
def Room.Leave (r : Room) (c : Nat) : Room :=
  { clients := r.clients.filter fun d => d ≠ c }

/-- `Room.Broadcast` (room.go:31-40) acting on the connection objects: for
each key `c` of `r.clients`, the non-blocking send `c.out <- b`. -/
def Room.Broadcast (r : Room) (b : Frame) (heap : Nat → Conn) : Nat → Conn :=
  r.clients.foldl
    (fun hp c => Function.update hp c { hp c with out := trySend outCap (hp c).out b })
    heap

/-! ## The bus (redis_bus.go) -/

/-- `BusMessage` (redis_bus.go:12-15). A nil `Payload` and an empty one are
both the empty frame; no code distinguishes them. -/
structure BusMessage where
  DocID : String
  Payload : Frame
deriving DecidableEq, Repr

/-- What `json.Unmarshal(raw, &bm)` leaves behind: the contents of `bm` after
the call (the zero value where nothing was assigned) and whether the call
reported an error. -/
structure Unmarshaled where
  bm : BusMessage
  err : Bool
deriving DecidableEq, Repr

/-- The body of `case msg := <-ch` in `RedisBus.Subscribe`
(redis_bus.go:51-56) for one raw message: the argument with which the callback
`fn` is invoked, or `none` when it is not invoked. `unmarshal` is
`json.Unmarshal` into a zero `BusMessage`; its error is discarded by `_ =`. -/
def RedisBus.onMessage {Raw : Type} (unmarshal : Raw → Unmarshaled) (raw : Raw) :
    Option BusMessage :=
  let bm := (unmarshal raw).bm
  if bm.DocID ≠ "" then some bm else none

/-- `RedisBus.Subscribe` (redis_bus.go:41-58) over the raw messages delivered
by the broker until cancellation: the invocations of `fn`, in order. -/
def RedisBus.Subscribe {Raw : Type} (unmarshal : Raw → Unmarshaled) (raws : List Raw) :
    List BusMessage :=
  raws.filterMap (RedisBus.onMessage unmarshal)

/-! ## The hub (hub.go) -/

/-- A `SaveDoc` call together with a history variable: `newest` is the payload
of the most recent snapshot-tagged frame that the process had received for the
document of the call when the call was issued. -/
structure Flush where
  call : SaveCall
  newest : Option Frame
deriving DecidableEq, Repr

/-- The hub with the objects reachable from it.
* `rooms` is the field `Hub.rooms`, `none` standing for an absent key.
* `roomAt` and `connAt` are the `Room` and `Conn` objects behind the pointers;
  `nextRoom` and `nextConn` are the next pointers `NewRoom` and `NewConn`
  return.
* `loopAt c` is the save loop started by `ServeWS` for connection `c`.
* `db` lists the `SaveDoc` calls issued so far, oldest first.
* `newest` is a history variable: for each document id, the payload of the
  most recent snapshot-tagged frame read from any connection of the
  document. No operation of the code reads it. -/
structure Hub where
  rooms : String → Option Nat
  nextRoom : Nat
  roomAt : Nat → Room
  nextConn : Nat
  connAt : Nat → Conn
  loopAt : Nat → SaveLoop
  db : List Flush
  newest : String → Option Frame

/-- `NewHub` (hub.go:23-25): `rooms: map[string]*Room{}`. -/
def NewHub : Hub :=
  { rooms := fun _ => none
    nextRoom := 0
    roomAt := fun _ => NewRoom
    nextConn := 0
    connAt := fun _ => default
    loopAt := fun _ => SaveLoop.init "" 0
    db := []
    newest := fun _ => none }

/-- `Hub.room` (hub.go:41-51), run under `h.mu`: the room registered for
`docID`, created and registered first when there is none. -/
def Hub.room (h : Hub) (docID : String) : Hub × Nat :=
  match h.rooms docID with
  | some rm => (h, rm)
  | none =>
      ({ h with rooms := Function.update h.rooms docID (some h.nextRoom)
                nextRoom := h.nextRoom + 1
                roomAt := Function.update h.roomAt h.nextRoom NewRoom },
        h.nextRoom)

/-- A sequence of `Hub.room` calls: the final hub and the rooms returned, in
call order. -/
def Hub.roomCalls (h : Hub) : List String → Hub × List Nat
  | [] => (h, [])
  | d :: ds =>
      let r := h.room d
      let q := Hub.roomCalls r.1 ds
      (q.1, r.2 :: q.2)

/-- The callback that `Hub.Run` hands to `Subscribe` (hub.go:29-36). -/
def Hub.deliver (h : Hub) (msg : BusMessage) : Hub :=
  match h.rooms msg.DocID with
  | some rm => { h with connAt := (h.roomAt rm).Broadcast msg.Payload h.connAt }
  | none => h

/-- `Hub.Run` (hub.go:28-38) over the raw messages that the broker delivers. -/
def Hub.Run {Raw : Type} (h : Hub) (unmarshal : Raw → Unmarshaled) (raws : List Raw) : Hub :=
  (RedisBus.Subscribe unmarshal raws).foldl Hub.deliver h

/-- The test `len(payload) > 1 && payload[0] == 3` of hub.go:117. -/
def isSnapshot (payload : Frame) : Bool :=
  decide (1 < payload.length) && (payload.head? == some 3)

/-- The atomic steps of the goroutines of one process.
* `httpError`, `accept`, `logError`: the calls of hub.go:58, 62, 64.
* `connect c docID`: `h.room(docID)`, `NewConn` returning `c`, `rm.Join(c)`
  and the start of the two loops (hub.go:68-79).
* `read c payload`: `c.Read(ctx)` returns `payload` (hub.go:107).
* `readClosed c`: `c.Read(ctx)` returns `ok = false` (hub.go:107-110,
  conn.go:38-41); the websocket connection is closed by then, as the comment of
  conn.go:36-37 says, for instance because the client has sent a close frame.
* `publish c m`: `h.bus.Publish(ctx, m)`, which returns once the broker has
  answered (hub.go:113, redis_bus.go:35-38).
* `broadcast c b`: `rm.Broadcast(b)` on the room of `c` (hub.go:114).
* `queueSave c b`: `c.QueueSave(b)` (hub.go:118).
* `leave c`, `close c`: hub.go:122 and 123.
* `deliver m`: the bus callback of `Hub.Run`.
* `writeOut c`: `case b := <-c.out` of `Conn.WriteLoop` (conn.go:59).
* `saveRecv c now`, `saveTimer c now saveDur`, `saveDone c now`: the cases of
  the `select` of the save loop of `c`, taken at instant `now`. -/
inductive Op where
  | httpError (status : Nat)
  | accept (ok : Bool)
  | logError
  | connect (c : Nat) (docID : String)
  | read (c : Nat) (payload : Frame)
  | readClosed (c : Nat)
  | publish (c : Nat) (m : BusMessage)
  | broadcast (c : Nat) (b : Frame)
  | queueSave (c : Nat) (b : Frame)
  | leave (c : Nat)
  | close (c : Nat)
  | deliver (m : BusMessage)
  | writeOut (c : Nat)
  | saveRecv (c : Nat) (now : Nat)
  | saveTimer (c : Nat) (now : Nat) (saveDur : Nat)
  | saveDone (c : Nat) (now : Nat)
deriving DecidableEq, Repr

/-- The effect of one atomic step on the hub. A step that names a connection
which does not exist, or a `connect` whose `c` is not the pointer `NewConn`
returns next, changes nothing; so does a `select` case that is not ready. -/
def Hub.step (h : Hub) : Op → Hub
  | .httpError _ => h
  | .accept _ => h
  | .logError => h
  | .connect c docID =>
      if c = h.nextConn then
        let r := h.room docID
        { r.1 with
            nextConn := c + 1
            connAt := Function.update r.1.connAt c (NewConn docID r.2)
            roomAt := Function.update r.1.roomAt r.2 ((r.1.roomAt r.2).Join c)
            loopAt := Function.update r.1.loopAt c (SaveLoop.init docID 0) }
      else h
  | .read c payload =>
      if c < h.nextConn ∧ isSnapshot payload = true then
        { h with newest := Function.update h.newest (h.connAt c).docID (some (payload.drop 1)) }
      else h
  | .readClosed c =>
      if c < h.nextConn then
        { h with connAt := Function.update h.connAt c { h.connAt c with closed := true } }
      else h
  | .publish _ _ => h
  | .broadcast c b =>
      if c < h.nextConn then
        { h with connAt := (h.roomAt (h.connAt c).rm).Broadcast b h.connAt }
      else h
  | .queueSave c b =>
      if c < h.nextConn then
        { h with connAt := Function.update h.connAt c ((h.connAt c).QueueSave b) }
      else h
  | .leave c =>
      if c < h.nextConn then
        { h with roomAt := Function.update h.roomAt (h.connAt c).rm
                   ((h.roomAt (h.connAt c).rm).Leave c) }
      else h
  | .close c =>
      if c < h.nextConn then
        { h with connAt := Function.update h.connAt c (h.connAt c).Close }
      else h
  | .deliver m => h.deliver m
  | .writeOut c =>
      if c < h.nextConn then
        { h with connAt := Function.update h.connAt c
                   { h.connAt c with out := (h.connAt c).out.drop 1 } }
      else h
  | .saveRecv c now =>
      if c < h.nextConn then
        match (h.connAt c).saveQ with
        | [] => h
        | b :: rest =>
            match (h.loopAt c).step (.recv now (some b)) with
            | none => h
            | some r =>
                { h with connAt := Function.update h.connAt c { h.connAt c with saveQ := rest }
                         loopAt := Function.update h.loopAt c r.1 }
      else h
  | .saveTimer c now saveDur =>
      if c < h.nextConn then
        match (h.loopAt c).step (.timerC now saveDur) with
        | none => h
        | some r =>
            { h with loopAt := Function.update h.loopAt c r.1
                     db := h.db ++ r.2.map fun w => { call := w, newest := h.newest w.id } }
      else h
  | .saveDone c now =>
      if c < h.nextConn then
        match (h.loopAt c).step (.done now) with
        | none => h
        | some r => { h with loopAt := Function.update h.loopAt c r.1 }
      else h

/-- The hub after a sequence of atomic steps. -/
def Hub.run (h : Hub) (ops : List Op) : Hub :=
  ops.foldl Hub.step h

/-- One iteration of the read loop of `ServeWS` after `c.Read` has returned
`payload` (hub.go:107-119), as the steps it performs in program order. -/
def readFrame (c : Nat) (docID : String) (payload : Frame) : List Op :=
  [.read c payload, .publish c { DocID := docID, Payload := payload }, .broadcast c payload]
    ++ (if isSnapshot payload = true then [.queueSave c (payload.drop 1)] else [])

/-- `Hub.ServeWS` (hub.go:54-124) as the steps the handler goroutine performs
in program order, for a request whose `docId` query value is `docID`, whose
upgrade succeeds when `acceptOk`, whose connection is `c`, and on which
`c.Read` returns the frames `frames` before it reports closed: the read-loop
iterations, the `Read` that reports closed, then `rm.Leave(c)` and
`c.Close()`. -/
def ServeWS (c : Nat) (docID : String) (acceptOk : Bool) (frames : List Frame) : List Op :=
  if docID = "" then [.httpError 400]
  else if acceptOk = false then [.accept false, .logError]
  else
    [.accept true, .connect c docID]
      ++ frames.flatMap (readFrame c docID)
      ++ [.readClosed c, .leave c, .close c]

/-- Freshness of the persisted state: every `SaveDoc` call issued so far wrote
the payload of the most recent snapshot-tagged frame received for its
document when it was issued. -/
def Hub.Fresh (h : Hub) : Prop :=
  ∀ f ∈ h.db, f.newest = some f.call.blob

instance (h : Hub) : Decidable h.Fresh := by
  unfold Hub.Fresh
  infer_instance

/-- Step `a` comes before step `b` in the sequence `l`. -/
def Precedes (a b : Op) (l : List Op) : Prop :=
  ∃ j < l.length, ∃ i < j, l[i]? = some a ∧ l[j]? = some b

instance (a b : Op) (l : List Op) : Decidable (Precedes a b l) := by
  unfold Precedes
  infer_instance

/-- The shape of the hubs that the operations produce.
* `reg_lt`, `reg_inj`: the registry holds allocated rooms, and no room under
  two document ids.
* `mem_rm`: a member of a room is an existing connection whose `rm` is that
  room.
* `conn_reg`: the room of a connection is the one registered for its document.
* `nodup`: the keys of `clients` are distinct.
* `out_le`, `saveQ_le`: no channel holds more than its capacity.
* `loop_doc`: the save loop of a connection captured its `docID`. -/
structure Hub.WF (h : Hub) : Prop where
  reg_lt : ∀ d r, h.rooms d = some r → r < h.nextRoom
  reg_inj : ∀ d1 d2 r, h.rooms d1 = some r → h.rooms d2 = some r → d1 = d2
  mem_rm : ∀ r c, c ∈ (h.roomAt r).clients → c < h.nextConn ∧ (h.connAt c).rm = r
  conn_reg : ∀ c, c < h.nextConn → h.rooms (h.connAt c).docID = some (h.connAt c).rm
  nodup : ∀ r, (h.roomAt r).clients.Nodup
  out_le : ∀ c, (h.connAt c).out.length ≤ outCap
  saveQ_le : ∀ c, (h.connAt c).saveQ.length ≤ saveCap
  loop_doc : ∀ c, c < h.nextConn → (h.loopAt c).docID = (h.connAt c).docID

/-- Hub `k` differs from hub `h` at most in the `out` queues of the members of
the room registered for document `A`. -/
def Hub.OnlyOutOf (h k : Hub) (A : String) : Prop :=
  k.rooms = h.rooms ∧ k.nextRoom = h.nextRoom ∧ k.roomAt = h.roomAt ∧
    k.nextConn = h.nextConn ∧ k.loopAt = h.loopAt ∧ k.db = h.db ∧ k.newest = h.newest ∧
    ∀ e, (k.connAt e).saveQ = (h.connAt e).saveQ ∧ (k.connAt e).docID = (h.connAt e).docID ∧
      (k.connAt e).rm = (h.connAt e).rm ∧ (k.connAt e).closed = (h.connAt e).closed ∧
      (k.connAt e ≠ h.connAt e → ∃ ra, h.rooms A = some ra ∧ e ∈ (h.roomAt ra).clients)

/-- Connection `c` exists and is a member of no room. -/
def Hub.Gone (h : Hub) (c : Nat) : Prop :=
  c < h.nextConn ∧ ∀ r, c ∉ (h.roomAt r).clients

/-- Membership is removed before the socket is closed: in hub `h` the socket
of connection `c` is not closed while `c` is still a member of its room. -/
def Hub.LeftBeforeClosed (h : Hub) (c : Nat) : Prop :=
  (h.connAt c).closed = true → c ∉ (h.roomAt (h.connAt c).rm).clients

instance (h : Hub) (c : Nat) : Decidable (h.LeftBeforeClosed c) := by
  unfold Hub.LeftBeforeClosed
  infer_instance

/-- The steps of the process up to the moment the read loop of connection 0
reports closed: one client connects to `doc1`, sends the frame `[1, 255]` and
then closes the websocket connection. -/
def clientCloses : List Op :=
  [.accept true, .connect 0 "doc1"] ++ readFrame 0 "doc1" [1, 255] ++ [.readClosed 0]

/-- Two connections attached to `doc1`. Connection 0 reads the snapshot frame
`[3, 1]` and its loop takes the payload at instant 0; connection 1 reads the
snapshot frame `[3, 2]` and its loop takes the payload 100ms later; the timer
of connection 0 expires at 250ms. -/
def twoWriters : List Op :=
  [.accept true, .connect 0 "doc1", .accept true, .connect 1 "doc1"]
    ++ readFrame 0 "doc1" [3, 1] ++ [.saveRecv 0 0]
    ++ readFrame 1 "doc1" [3, 2] ++ [.saveRecv 1 (100 * Millisecond)]
    ++ [.saveTimer 0 (250 * Millisecond) 0]

/-- What `json.Unmarshal` leaves for a raw message that is a JSON object with
the string `doc1` under the key `docId` and the number 7 under the key
`payload`: the number is not appropriate for the `[]byte` field, so that field
is skipped, `DocID` is assigned and an `UnmarshalTypeError` is returned. -/
def wrongPayloadType : Unmarshaled :=
  { bm := { DocID := "doc1", Payload := [] }, err := true }

/-- Connection objects for a room of two: connection 0, a slow client whose
`out` queue holds 256 frames, and connection 1, whose queue is empty. -/
def slowClient : Nat → Conn :=
  fun c => if c = 0 then { NewConn "doc1" 0 with out := List.replicate 256 [7] }
    else NewConn "doc1" 0

/-- Two connections, attached to the documents `a` and `b`. -/
def twoDocs : List Op :=
  [.accept true, .connect 0 "a", .accept true, .connect 1 "b"]

/-- The scenario of one client that connects to `doc1` and sends the snapshot
frame `[3, 0x41, 0x42]`, the save loop taking the payload at once and its timer
case being taken 300ms later. -/
def oneSnapshot : List Op :=
  [.accept true, .connect 0 "doc1"] ++ readFrame 0 "doc1" [3, 0x41, 0x42]
    ++ [.saveRecv 0 0, .saveTimer 0 (300 * Millisecond) 0]

/-! ## The request, successive broadcasts and the instants of a schedule -/

/-- `r.URL.Query().Get("docId")` (hub.go:56) for a request whose query holds
the value `v` under the key `docId`, or no value when `v` is `none`: the value,
or the empty string when there is none. -/
def queryGet (v : Option String) : String :=
  v.getD ""

/-- Successive `Room.Broadcast` calls on one room, one per frame of `bs`, in
order. -/
def Room.BroadcastAll (r : Room) (bs : List Frame) (heap : Nat → Conn) : Nat → Conn :=
  bs.foldl (fun hp b => r.Broadcast b hp) heap

/-- Connection objects for a room of two whose `out` queues hold one frame
each. -/
def idleClients : Nat → Conn :=
  fun _ => { NewConn "doc1" 0 with out := [[7]] }

/-- The instants at which a schedule of the save loop takes a payload from the
save queue, in order. -/
def recvTimes (es : List SaveEvent) : List Nat :=
  es.filterMap fun ev =>
    match ev with
    | .recv now _ => some now
    | _ => none

/-- A burst of two payloads taken 100ms apart, followed by the timer case
250ms after the second. -/
def burstOfTwo : List SaveEvent :=
  [.recv 0 (some [1]), .recv (100 * Millisecond) (some [2]), .timerC (350 * Millisecond) 0]

/-! ## The rate limiter (pkg/ratelimit/ratelimit.go) -/

/-- The type `bucket` (ratelimit.go:18-21): the start of the window, as an
instant in nanoseconds, and the tokens that remain. -/
structure ratelimit.bucket where
  ts : Int
  tokens : Int
deriving DecidableEq, Repr

/-- The type `Limiter` (ratelimit.go:11-16); `buckets ip = none` stands for an
absent key, `per` is a `time.Duration` in nanoseconds. -/
structure ratelimit.Limiter where
  buckets : String → Option ratelimit.bucket
  max : Int
  per : Int

/-- `New(max, per)` (ratelimit.go:24-26). -/
def ratelimit.New (max per : Int) : ratelimit.Limiter :=
  { buckets := fun _ => none, max := max, per := per }

/-- What the handler reads of one request: the host `ip` that
`net.SplitHostPort(req.RemoteAddr)` returns (the empty string when it fails),
the instant `since` that `time.Since(b.ts)` reads and the instant `now` that
`time.Now()` reads. -/
structure ratelimit.Request where
  ip : String
  since : Int
  now : Int
deriving DecidableEq, Repr

/-- How the handler ends: `next.ServeHTTP(w, req)` is called, or `http.Error`
answers with `status` and the next handler is not reached. -/
inductive ratelimit.Verdict where
  | next
  | httpError (status : Nat)
deriving DecidableEq, Repr

/-- The condition `b == nil || time.Since(b.ts) > r.per` of ratelimit.go:35:
the request starts a new window. -/
def ratelimit.Limiter.startsWindow (r : ratelimit.Limiter) (req : ratelimit.Request) : Bool :=
  match r.buckets req.ip with
  | none => true
  | some b => decide (req.since - b.ts > r.per)

/-- The bucket `b` the handler works on after ratelimit.go:34-39: the one the
map holds for the address, or a new one with `max` tokens, stamped
`time.Now()`, when the request starts a window. -/
def ratelimit.Limiter.current (r : ratelimit.Limiter) (req : ratelimit.Request) :
    ratelimit.bucket :=
  match r.buckets req.ip with
  | some b0 => if r.startsWindow req = true then { ts := req.now, tokens := r.max } else b0
  | none => { ts := req.now, tokens := r.max }

/-- The handler that `Limiter.Middleware` returns (ratelimit.go:30-51), run
under `r.mu` for one request: the limiter it leaves and how it ends. When the
handler returns the map holds the bucket `b` under the address, with one token
less when the request is passed on. -/
def ratelimit.Limiter.Middleware (r : ratelimit.Limiter) (req : ratelimit.Request) :
    ratelimit.Limiter × ratelimit.Verdict :=
  let b := r.current req
  if b.tokens ≤ 0 then
    ({ r with buckets := Function.update r.buckets req.ip (some b) }, .httpError 429)
  else
    ({ r with buckets := Function.update r.buckets req.ip (some ⟨b.ts, b.tokens - 1⟩) }, .next)

/-- The handler run over a sequence of requests: the limiter it leaves and,
for each request in order, how the handler ended. -/
def ratelimit.Limiter.serve (r : ratelimit.Limiter) :
    List ratelimit.Request → ratelimit.Limiter × List (ratelimit.Request × ratelimit.Verdict)
  | [] => (r, [])
  | req :: reqs =>
      let a := r.Middleware req
      let q := ratelimit.Limiter.serve a.1 reqs
      (q.1, (req, a.2) :: q.2)

/-- The verdicts on the requests of one client address, in order. -/
def ratelimit.verdictsOf (ip : String) (log : List (ratelimit.Request × ratelimit.Verdict)) :
    List ratelimit.Verdict :=
  (log.filter fun p => decide (p.1.ip = ip)).map Prod.snd

/-- The verdicts on `n` requests of one window when `max` tokens are granted:
the request of rank `k`, counted from 0, is passed on when `k < max` and is
answered with status 429 otherwise. -/
def ratelimit.firstMax (max : Int) (n : Nat) : List ratelimit.Verdict :=
  (List.range n).map fun (k : Nat) =>
    if (k : Int) < max then ratelimit.Verdict.next else ratelimit.Verdict.httpError 429

/-- The requests that follow the opening request of a window of 10ns: two more
requests of the address `10.0.0.1` inside the window, and one of another
address in between. -/
def threeInWindow : List ratelimit.Request :=
  [{ ip := "10.0.0.1", since := 1, now := 1 }, { ip := "10.0.0.2", since := 2, now := 2 },
    { ip := "10.0.0.1", since := 5, now := 5 }]

/-- The frame a step broadcasts into a room, if it is a broadcast: the local
broadcast of the read loop or the broadcast of the bus callback. -/
def Op.frame? : Op → Option Frame
  | .broadcast _ b => some b
  | .deliver m => some m.Payload
  | _ => none

/-- The frames that a sequence of steps broadcasts, in order. -/
def broadcastFrames (ops : List Op) : List Frame :=
  ops.filterMap Op.frame?

/-! # Properties -/

/-! ## The save loop -/

theorem SaveLoop.run_nil (s : SaveLoop) : s.run [] = some (s, []) := rfl

theorem SaveLoop.run_cons (s : SaveLoop) (ev : SaveEvent) (evs : List SaveEvent) :
    s.run (ev :: evs) =
      (s.step ev).bind fun r => (r.1.run evs).map fun q => (q.1, r.2 ++ q.2) := rfl

theorem SaveLoop.run_append (s : SaveLoop) (xs ys : List SaveEvent) :
    s.run (xs ++ ys) =
      (s.run xs).bind fun r => (r.1.run ys).map fun q => (q.1, r.2 ++ q.2) := by
  induction xs generalizing s with
  | nil =>
      rw [List.nil_append, SaveLoop.run_nil, Option.some_bind]
      cases s.run ys <;> simp
  | cons x xs ih =>
      rw [List.cons_append, SaveLoop.run_cons, SaveLoop.run_cons]
      cases hx : s.step x with
      | none => simp
      | some r =>
          simp only [Option.some_bind]
          rw [ih r.1]
          cases h1 : r.1.run xs with
          | none => simp
          | some r1 =>
              simp only [Option.some_bind, Option.map_some']
              cases h2 : r1.1.run ys with
              | none => simp
              | some r2 => simp [List.append_assoc]

theorem SaveLoop.step_recv (s : SaveLoop) (now : Nat) (b : Option Frame)
    (hrun : s.exited = false) (hnow : s.clock ≤ now) :
    s.step (.recv now b) =
      some ({ s with latest := b, timer := some (now + debounceDur), clock := now }, []) := by
  simp [SaveLoop.step, SaveEvent.now, hrun, Nat.not_lt.mpr hnow]

theorem SaveLoop.run_arrivals (arr : List (Nat × Frame)) (hne : arr ≠ []) (s : SaveLoop)
    (hrun : s.exited = false)
    (hts : List.Chain (· ≤ ·) s.clock (arr.map Prod.fst)) :
    s.run (arrivals arr) =
      some ({ s with latest := some (arr.getLast hne).2,
                     timer := some ((arr.getLast hne).1 + debounceDur),
                     clock := (arr.getLast hne).1 }, []) := by
  induction arr generalizing s with
  | nil => exact absurd rfl hne
  | cons a rest ih =>
      simp only [List.map_cons, List.chain_cons] at hts
      obtain ⟨h0, hrest⟩ := hts
      simp only [arrivals, List.map_cons, SaveLoop.run, SaveLoop.step_recv s a.1 (some a.2) hrun h0,
        Option.some_bind]
      cases rest with
      | nil => simp [SaveLoop.run]
      | cons a2 rest2 =>
          have := ih (List.cons_ne_nil a2 rest2)
            { s with latest := some a.2, timer := some (a.1 + debounceDur), clock := a.1 }
            hrun hrest
          simp only [arrivals, List.map_cons] at this
          simp [this, List.getLast_cons]

/-- The save calls issued from a state in which the timer, if armed, expires
no sooner than `debounceDur` after instant `B`, all come at least
`debounceDur` after `B` and are at least `debounceDur` apart from one
another. -/
theorem SaveLoop.run_spaced (es : List SaveEvent) (s : SaveLoop) (B : Nat)
    (hclock : B ≤ s.clock) (htimer : ∀ e, s.timer = some e → B + debounceDur ≤ e)
    (s1 : SaveLoop) (ws : List SaveCall) (hrun : s.run es = some (s1, ws)) :
    (∀ w ∈ ws, B + debounceDur ≤ w.time) ∧
      ws.Pairwise (fun a b => a.time + debounceDur ≤ b.time) := by
  induction es generalizing s B ws with
  | nil =>
      simp only [SaveLoop.run_nil, Option.some.injEq, Prod.mk.injEq] at hrun
      obtain ⟨-, rfl⟩ := hrun
      simp
  | cons ev es ih =>
      rw [SaveLoop.run_cons] at hrun
      cases hstep : s.step ev with
      | none => simp [hstep] at hrun
      | some r =>
          obtain ⟨sa, wa⟩ := r
          simp only [hstep, Option.some_bind] at hrun
          cases hrest : sa.run es with
          | none => simp [hrest] at hrun
          | some q =>
              obtain ⟨sb, wb⟩ := q
              simp only [hrest, Option.map_some', Option.some.injEq, Prod.mk.injEq] at hrun
              obtain ⟨rfl, rfl⟩ := hrun
              unfold SaveLoop.step at hstep
              split at hstep
              · exact absurd hstep (by simp)
              · rename_i hguard
                simp only [not_or, Nat.not_lt] at hguard
                obtain ⟨-, hnow⟩ := hguard
                cases ev with
                | recv now b =>
                    simp only [Option.some.injEq, Prod.mk.injEq] at hstep
                    obtain ⟨rfl, rfl⟩ := hstep
                    simp only [SaveEvent.now] at hnow
                    have := ih _ B (by simp; omega) (by intro e h; simp at h; omega) wb hrest
                    simpa using this
                | closed now =>
                    simp only [Option.some.injEq, Prod.mk.injEq] at hstep
                    obtain ⟨rfl, rfl⟩ := hstep
                    simp only [SaveEvent.now] at hnow
                    have := ih _ B (by simp; omega) (by simpa using htimer) wb hrest
                    simpa using this
                | done now =>
                    simp only [Option.some.injEq, Prod.mk.injEq] at hstep
                    obtain ⟨rfl, rfl⟩ := hstep
                    simp only [SaveEvent.now] at hnow
                    have := ih _ B (by simp; omega) (by simpa using htimer) wb hrest
                    simpa using this
                | timerC now saveDur =>
                    simp only [SaveEvent.now] at hnow
                    cases ht : s.timer with
                    | none => simp [ht] at hstep
                    | some e =>
                        have he := htimer e ht
                        simp only [ht] at hstep
                        split at hstep
                        · exact absurd hstep (by simp)
                        · rename_i hexp
                          cases hl : s.latest with
                          | none =>
                              simp only [hl, Option.some.injEq, Prod.mk.injEq] at hstep
                              obtain ⟨rfl, rfl⟩ := hstep
                              have := ih _ B (by simp; omega) (by intro e h; simp at h; omega) wb hrest
                              simpa using this
                          | some b =>
                              simp only [hl, Option.some.injEq, Prod.mk.injEq] at hstep
                              obtain ⟨rfl, rfl⟩ := hstep
                              have := ih _ now (by simp) (by intro e h; simp at h; omega) wb hrest
                              obtain ⟨h1, h2⟩ := this
                              refine ⟨?_, ?_⟩
                              · intro w hw
                                simp only [List.singleton_append, List.mem_cons] at hw
                                rcases hw with rfl | hw
                                · simp; omega
                                · have := h1 w hw; omega
                              · simp only [List.singleton_append, List.pairwise_cons]
                                exact ⟨fun w hw => h1 w hw, h2⟩

theorem SaveLoop.step_docID (s : SaveLoop) (ev : SaveEvent) (r : SaveLoop × List SaveCall)
    (h : s.step ev = some r) : r.1.docID = s.docID := by
  unfold SaveLoop.step at h
  split at h
  · exact absurd h (by simp)
  · cases ev with
    | recv now b => simp at h; rw [← h]
    | closed now => simp at h; rw [← h]
    | done now => simp at h; rw [← h]
    | timerC now saveDur =>
        simp only at h
        split at h
        · exact absurd h (by simp)
        · split at h
          · exact absurd h (by simp)
          · split at h <;> (simp at h; rw [← h])

/-- A loop that has returned issues no save call. -/
theorem SaveLoop.run_exited (es : List SaveEvent) (s s1 : SaveLoop) (ws : List SaveCall)
    (hx : s.exited = true) (hrun : s.run es = some (s1, ws)) : ws = [] := by
  cases es with
  | nil =>
      simp only [SaveLoop.run_nil, Option.some.injEq, Prod.mk.injEq] at hrun
      exact hrun.2.symm
  | cons ev es =>
      rw [SaveLoop.run_cons] at hrun
      simp [SaveLoop.step, hx] at hrun

/-- Every save call of a run carries the loop's document id and the payload
of the `recv` that the flushing `timerC` directly follows, the flush coming at
least `debounceDur` after that `recv`; unless it flushes the payload that was
pending when the run started. -/
theorem SaveLoop.run_flush_source (es : List SaveEvent) (s s1 : SaveLoop)
    (ws : List SaveCall) (hrun : s.run es = some (s1, ws)) :
    ∀ w ∈ ws, w.id = s.docID ∧
      ((∃ pre t saveDur post,
          es = pre ++ [SaveEvent.recv t (some w.blob), SaveEvent.timerC w.time saveDur] ++ post ∧
          t + debounceDur ≤ w.time) ∨
        (s.latest = some w.blob ∧ (∃ e, s.timer = some e ∧ e ≤ w.time) ∧
          ∃ saveDur post, es = SaveEvent.timerC w.time saveDur :: post)) := by
  induction es generalizing s ws with
  | nil =>
      simp only [SaveLoop.run_nil, Option.some.injEq, Prod.mk.injEq] at hrun
      obtain ⟨-, rfl⟩ := hrun
      simp
  | cons ev es ih =>
      rw [SaveLoop.run_cons] at hrun
      cases hstep : s.step ev with
      | none => simp [hstep] at hrun
      | some r =>
          obtain ⟨sa, wa⟩ := r
          simp only [hstep, Option.some_bind] at hrun
          cases hrest : sa.run es with
          | none => simp [hrest] at hrun
          | some q =>
              obtain ⟨sb, wb⟩ := q
              simp only [hrest, Option.map_some', Option.some.injEq, Prod.mk.injEq] at hrun
              obtain ⟨rfl, rfl⟩ := hrun
              have hdoc : sa.docID = s.docID := SaveLoop.step_docID s ev (sa, wa) hstep
              have hih := ih sa wb hrest
              have hexit : sa.exited = true → wb = [] :=
                fun hx => SaveLoop.run_exited es sa sb wb hx hrest
              intro w hw
              unfold SaveLoop.step at hstep
              split at hstep
              · exact absurd hstep (by simp)
              · rcases List.mem_append.mp hw with hwa | hwb
                · -- the call is issued by this very iteration
                  cases ev with
                  | recv now b =>
                      simp only [Option.some.injEq, Prod.mk.injEq] at hstep
                      rw [← hstep.2] at hwa
                      simp at hwa
                  | closed now =>
                      simp only [Option.some.injEq, Prod.mk.injEq] at hstep
                      rw [← hstep.2] at hwa
                      simp at hwa
                  | done now =>
                      simp only [Option.some.injEq, Prod.mk.injEq] at hstep
                      rw [← hstep.2] at hwa
                      simp at hwa
                  | timerC now saveDur =>
                      cases ht : s.timer with
                      | none => simp [ht] at hstep
                      | some e =>
                          simp only [ht] at hstep
                          split at hstep
                          · exact absurd hstep (by simp)
                          · rename_i hexp
                            cases hl : s.latest with
                            | none =>
                                simp only [hl, Option.some.injEq, Prod.mk.injEq] at hstep
                                rw [← hstep.2] at hwa
                                simp at hwa
                            | some b =>
                                simp only [hl, Option.some.injEq, Prod.mk.injEq] at hstep
                                rw [← hstep.2] at hwa
                                simp only [List.mem_singleton] at hwa
                                subst hwa
                                exact ⟨rfl, Or.inr ⟨rfl, ⟨e, rfl, Nat.not_lt.mp hexp⟩,
                                  saveDur, es, rfl⟩⟩
                · -- the call is issued by a later iteration
                  obtain ⟨hid, hsrc⟩ := hih w hwb
                  refine ⟨hid.trans hdoc, ?_⟩
                  rcases hsrc with ⟨pre, t, sd, post, hes, hle⟩ | ⟨hlat, ⟨e, hte, hle⟩, sd, post, hes⟩
                  · exact Or.inl ⟨ev :: pre, t, sd, post, by rw [hes]; rfl, hle⟩
                  · cases ev with
                    | recv now b =>
                        simp only [Option.some.injEq, Prod.mk.injEq] at hstep
                        obtain ⟨hsa, -⟩ := hstep
                        rw [← hsa] at hlat hte
                        simp only at hlat hte
                        simp only [Option.some.injEq] at hte
                        subst hlat
                        exact Or.inl ⟨[], now, sd, post, by rw [hes]; rfl, by omega⟩
                    | closed now =>
                        simp only [Option.some.injEq, Prod.mk.injEq] at hstep
                        have := hexit (by rw [← hstep.1])
                        rw [this] at hwb
                        simp at hwb
                    | done now =>
                        simp only [Option.some.injEq, Prod.mk.injEq] at hstep
                        have := hexit (by rw [← hstep.1])
                        rw [this] at hwb
                        simp at hwb
                    | timerC now saveDur =>
                        exfalso
                        cases ht : s.timer with
                        | none => simp [ht] at hstep
                        | some e0 =>
                            simp only [ht] at hstep
                            split at hstep
                            · exact absurd hstep (by simp)
                            · cases hl : s.latest with
                              | none =>
                                  simp only [hl, Option.some.injEq, Prod.mk.injEq] at hstep
                                  rw [← hstep.1] at hlat
                                  simp [hl] at hlat
                              | some b0 =>
                                  simp only [hl, Option.some.injEq, Prod.mk.injEq] at hstep
                                  rw [← hstep.1] at hlat
                                  simp at hlat

/-! ## Rooms and the hub -/

theorem trySend_length_le (cap : Nat) (ch : List Frame) (b : Frame) (h : ch.length ≤ cap) :
    (trySend cap ch b).length ≤ cap := by
  unfold trySend
  split
  · simp; omega
  · exact h

theorem trySend_full (cap : Nat) (ch : List Frame) (b : Frame) (h : cap ≤ ch.length) :
    trySend cap ch b = ch := by
  simp [trySend, Nat.not_lt.mpr h]

theorem trySend_room (cap : Nat) (ch : List Frame) (b : Frame) (h : ch.length < cap) :
    trySend cap ch b = ch ++ [b] := by
  simp [trySend, h]

theorem Room.Broadcast_nil (b : Frame) (heap : Nat → Conn) :
    Room.Broadcast { clients := [] } b heap = heap := rfl

theorem Room.Broadcast_cons (c : Nat) (cs : List Nat) (b : Frame) (heap : Nat → Conn) :
    Room.Broadcast { clients := c :: cs } b heap =
      Room.Broadcast { clients := cs } b
        (Function.update heap c { heap c with out := trySend outCap (heap c).out b }) := rfl

/-- A broadcast leaves every connection outside the room as it was. -/
theorem Room.Broadcast_not_mem (r : Room) (b : Frame) (heap : Nat → Conn) (d : Nat)
    (hd : d ∉ r.clients) : r.Broadcast b heap d = heap d := by
  obtain ⟨cs⟩ := r
  induction cs generalizing heap with
  | nil => rfl
  | cons c cs ih =>
      simp only [List.mem_cons, not_or] at hd
      rw [Room.Broadcast_cons, ih _ hd.2, Function.update_noteq hd.1]

/-- A broadcast changes nothing but the `out` queues. -/
theorem Room.Broadcast_fields (r : Room) (b : Frame) (heap : Nat → Conn) (d : Nat) :
    (r.Broadcast b heap d).saveQ = (heap d).saveQ ∧ (r.Broadcast b heap d).docID = (heap d).docID ∧
      (r.Broadcast b heap d).rm = (heap d).rm ∧ (r.Broadcast b heap d).closed = (heap d).closed := by
  obtain ⟨cs⟩ := r
  induction cs generalizing heap with
  | nil => exact ⟨rfl, rfl, rfl, rfl⟩
  | cons c cs ih =>
      rw [Room.Broadcast_cons]
      have := ih (Function.update heap c { heap c with out := trySend outCap (heap c).out b })
      by_cases hc : d = c
      · subst hc
        simpa using this
      · simpa [Function.update_noteq hc] using this

/-- A broadcast keeps every `out` queue within its capacity. -/
theorem Room.Broadcast_out_le (r : Room) (b : Frame) (heap : Nat → Conn) (d : Nat)
    (hd : (heap d).out.length ≤ outCap) : (r.Broadcast b heap d).out.length ≤ outCap := by
  obtain ⟨cs⟩ := r
  induction cs generalizing heap with
  | nil => exact hd
  | cons c cs ih =>
      rw [Room.Broadcast_cons]
      apply ih
      by_cases hc : d = c
      · subst hc
        simpa using trySend_length_le outCap _ b hd
      · simpa [Function.update_noteq hc] using hd

/-- A broadcast leaves a connection whose `out` queue is full as it was. -/
theorem Room.Broadcast_full (r : Room) (b : Frame) (heap : Nat → Conn) (d : Nat)
    (hd : outCap ≤ (heap d).out.length) : r.Broadcast b heap d = heap d := by
  obtain ⟨cs⟩ := r
  induction cs generalizing heap with
  | nil => rfl
  | cons c cs ih =>
      rw [Room.Broadcast_cons]
      by_cases hc : d = c
      · subst hc
        have hsame : Function.update heap d { heap d with out := trySend outCap (heap d).out b }
            = heap := by
          rw [trySend_full outCap _ b hd]
          exact Function.update_eq_self d heap
        rw [hsame]
        exact ih heap hd
      · rw [ih _ (by simpa [Function.update_noteq hc] using hd), Function.update_noteq hc]

/-- A broadcast sends the frame once to each member of the room. -/
theorem Room.Broadcast_mem (r : Room) (b : Frame) (heap : Nat → Conn) (d : Nat)
    (hnodup : r.clients.Nodup) (hd : d ∈ r.clients) :
    r.Broadcast b heap d = { heap d with out := trySend outCap (heap d).out b } := by
  obtain ⟨cs⟩ := r
  induction cs generalizing heap with
  | nil => simp at hd
  | cons c cs ih =>
      simp only [List.nodup_cons] at hnodup
      rw [Room.Broadcast_cons]
      by_cases hc : d = c
      · subst hc
        rw [Room.Broadcast_not_mem _ _ _ _ hnodup.1, Function.update_same]
      · simp only [List.mem_cons, hc, false_or] at hd
        rw [ih _ hnodup.2 hd, Function.update_noteq hc]

theorem NewHub_WF : NewHub.WF where
  reg_lt := by intro d r h; simp [NewHub] at h
  reg_inj := by intro d1 d2 r h; simp [NewHub] at h
  mem_rm := by intro r c h; simp [NewHub, NewRoom] at h
  conn_reg := by intro c h; simp [NewHub] at h
  nodup := by intro r; simp [NewHub, NewRoom]
  out_le := by intro c; simp [NewHub, default, NewConn]
  saveQ_le := by intro c; simp [NewHub, default, NewConn]
  loop_doc := by intro c h; simp [NewHub] at h

theorem Hub.room_WF (h : Hub) (hw : h.WF) (docID : String) : (h.room docID).1.WF := by
  unfold Hub.room
  cases hreg : h.rooms docID with
  | some rm => exact hw
  | none =>
      refine
        { reg_lt := ?_, reg_inj := ?_, mem_rm := ?_, conn_reg := ?_, nodup := ?_,
          out_le := hw.out_le, saveQ_le := hw.saveQ_le, loop_doc := hw.loop_doc }
      · intro d r hd
        simp only [Function.update_apply] at hd
        split at hd
        · simp at hd
          show r < h.nextRoom + 1
          omega
        · have := hw.reg_lt d r hd
          show r < h.nextRoom + 1
          omega
      · intro d1 d2 r h1 h2
        simp only [Function.update_apply] at h1 h2
        split at h1 <;> split at h2
        · simp_all
        · simp at h1
          have := hw.reg_lt d2 r h2
          omega
        · simp at h2
          have := hw.reg_lt d1 r h1
          omega
        · exact hw.reg_inj d1 d2 r h1 h2
      · intro r c hc
        simp only [Function.update_apply] at hc
        split at hc
        · simp [NewRoom] at hc
        · exact hw.mem_rm r c hc
      · intro c hc
        have := hw.conn_reg c hc
        simp only [Function.update_apply]
        split
        · rename_i heq
          rw [heq, hreg] at this
          exact absurd this (by simp)
        · exact this
      · intro r
        simp only [Function.update_apply]
        split
        · simp [NewRoom]
        · exact hw.nodup r

theorem Hub.room_spec (h : Hub) (docID : String) :
    (h.room docID).1.rooms docID = some (h.room docID).2 ∧
      (h.room docID).1.nextConn = h.nextConn ∧ (h.room docID).1.connAt = h.connAt ∧
      (h.room docID).1.loopAt = h.loopAt := by
  unfold Hub.room
  cases hreg : h.rooms docID with
  | some rm => simp [hreg]
  | none => simp

theorem Room.mem_Join (r : Room) (c d : Nat) :
    d ∈ (r.Join c).clients ↔ d ∈ r.clients ∨ d = c := by
  unfold Room.Join
  split
  · rename_i hc
    constructor
    · exact fun h => Or.inl h
    · rintro (h | rfl)
      · exact h
      · exact hc
  · simp

theorem Room.nodup_Join (r : Room) (c : Nat) (h : r.clients.Nodup) :
    (r.Join c).clients.Nodup := by
  unfold Room.Join
  split
  · exact h
  · rename_i hc
    exact List.Nodup.append h (List.nodup_singleton c) (by simpa using hc)

theorem Room.mem_Leave (r : Room) (c d : Nat) :
    d ∈ (r.Leave c).clients ↔ d ∈ r.clients ∧ d ≠ c := by
  simp [Room.Leave]

theorem Room.nodup_Leave (r : Room) (c : Nat) (h : r.clients.Nodup) :
    (r.Leave c).clients.Nodup :=
  List.Nodup.filter _ h

theorem Hub.connect_WF (h : Hub) (hw : h.WF) (docID : String) :
    (h.step (.connect h.nextConn docID)).WF := by
  have hg := Hub.room_WF h hw docID
  obtain ⟨hreg, hnc, hca, hla⟩ := Hub.room_spec h docID
  simp only [Hub.step, if_true]
  generalize h.room docID = r at hg hreg hnc hca hla
  obtain ⟨g, rm⟩ := r
  simp only at hg hreg hnc hca hla
  refine
    { reg_lt := hg.reg_lt, reg_inj := hg.reg_inj, mem_rm := ?_, conn_reg := ?_, nodup := ?_,
      out_le := ?_, saveQ_le := ?_, loop_doc := ?_ }
  · intro r c hc
    simp only [Function.update_apply] at hc ⊢
    have hold : ∀ r, c ∈ (g.roomAt r).clients → (c < h.nextConn + 1 ∧
        (if c = h.nextConn then NewConn docID rm else g.connAt c).rm = r) := by
      intro r hr
      have := hg.mem_rm r c hr
      rw [hnc] at this
      have hne : c ≠ h.nextConn := by omega
      simp only [hne, if_false]
      exact ⟨by omega, this.2⟩
    split at hc
    · rename_i hr
      subst hr
      rcases (Room.mem_Join _ _ _).mp hc with hc | rfl
      · exact hold _ hc
      · simp [NewConn]
    · exact hold _ hc
  · intro c hc
    simp only [Function.update_apply]
    split
    · simpa [NewConn] using hreg
    · rename_i hne
      exact hg.conn_reg c (by rw [hnc]; show c < h.nextConn; have : c < h.nextConn + 1 := hc; omega)
  · intro r
    simp only [Function.update_apply]
    split
    · rename_i hr
      subst hr
      exact Room.nodup_Join _ _ (hg.nodup _)
    · exact hg.nodup r
  · intro c
    simp only [Function.update_apply]
    split
    · simp [NewConn]
    · exact hg.out_le c
  · intro c
    simp only [Function.update_apply]
    split
    · simp [NewConn]
    · exact hg.saveQ_le c
  · intro c hc
    simp only [Function.update_apply]
    split
    · simp [NewConn, SaveLoop.init]
    · rename_i hne
      exact hg.loop_doc c (by rw [hnc]; show c < h.nextConn; have : c < h.nextConn + 1 := hc; omega)

theorem Hub.broadcast_WF (h : Hub) (hw : h.WF) (r : Room) (b : Frame) :
    ({ h with connAt := r.Broadcast b h.connAt } : Hub).WF where
  reg_lt := hw.reg_lt
  reg_inj := hw.reg_inj
  mem_rm := fun r1 c hc =>
    ⟨(hw.mem_rm r1 c hc).1, by
      show (r.Broadcast b h.connAt c).rm = r1
      rw [(Room.Broadcast_fields r b h.connAt c).2.2.1]
      exact (hw.mem_rm r1 c hc).2⟩
  conn_reg := fun c hc => by
    show h.rooms (r.Broadcast b h.connAt c).docID = some (r.Broadcast b h.connAt c).rm
    rw [(Room.Broadcast_fields r b h.connAt c).2.2.1, (Room.Broadcast_fields r b h.connAt c).2.1]
    exact hw.conn_reg c hc
  nodup := hw.nodup
  out_le := fun c => Room.Broadcast_out_le r b h.connAt c (hw.out_le c)
  saveQ_le := fun c => by
    show (r.Broadcast b h.connAt c).saveQ.length ≤ saveCap
    rw [(Room.Broadcast_fields r b h.connAt c).1]
    exact hw.saveQ_le c
  loop_doc := fun c hc => by
    show (h.loopAt c).docID = (r.Broadcast b h.connAt c).docID
    rw [(Room.Broadcast_fields r b h.connAt c).2.1]
    exact hw.loop_doc c hc

/-- Replacing a connection object by one with the same `docID` and `rm` and
channels within capacity keeps the hub well formed. -/
theorem Hub.setConn_WF (h : Hub) (hw : h.WF) (c : Nat) (v : Conn)
    (hdoc : v.docID = (h.connAt c).docID) (hrm : v.rm = (h.connAt c).rm)
    (hout : v.out.length ≤ outCap) (hsave : v.saveQ.length ≤ saveCap) :
    ({ h with connAt := Function.update h.connAt c v } : Hub).WF where
  reg_lt := hw.reg_lt
  reg_inj := hw.reg_inj
  mem_rm := fun r d hd => by
    refine ⟨(hw.mem_rm r d hd).1, ?_⟩
    show (Function.update h.connAt c v d).rm = r
    rw [Function.update_apply]
    split
    · rename_i hdc
      rw [hrm, ← hdc]
      exact (hw.mem_rm r d hd).2
    · exact (hw.mem_rm r d hd).2
  conn_reg := fun d hd => by
    show h.rooms (Function.update h.connAt c v d).docID = some (Function.update h.connAt c v d).rm
    rw [Function.update_apply]
    split
    · rename_i hdc
      rw [hrm, hdoc, ← hdc]
      exact hw.conn_reg d hd
    · exact hw.conn_reg d hd
  nodup := hw.nodup
  out_le := fun d => by
    show (Function.update h.connAt c v d).out.length ≤ outCap
    rw [Function.update_apply]
    split
    · exact hout
    · exact hw.out_le d
  saveQ_le := fun d => by
    show (Function.update h.connAt c v d).saveQ.length ≤ saveCap
    rw [Function.update_apply]
    split
    · exact hsave
    · exact hw.saveQ_le d
  loop_doc := fun d hd => by
    show (h.loopAt d).docID = (Function.update h.connAt c v d).docID
    rw [Function.update_apply]
    split
    · rename_i hdc
      rw [hdoc, ← hdc]
      exact hw.loop_doc d hd
    · exact hw.loop_doc d hd

/-- Replacing a save loop by one with the same `docID` keeps the hub well
formed. -/
theorem Hub.setLoop_WF (h : Hub) (hw : h.WF) (c : Nat) (l : SaveLoop) (db : List Flush)
    (hdoc : l.docID = (h.loopAt c).docID) :
    ({ h with loopAt := Function.update h.loopAt c l, db := db } : Hub).WF where
  reg_lt := hw.reg_lt
  reg_inj := hw.reg_inj
  mem_rm := hw.mem_rm
  conn_reg := hw.conn_reg
  nodup := hw.nodup
  out_le := hw.out_le
  saveQ_le := hw.saveQ_le
  loop_doc := fun d hd => by
    show (Function.update h.loopAt c l d).docID = (h.connAt d).docID
    rw [Function.update_apply]
    split
    · rename_i hdc
      rw [hdoc, ← hdc]
      exact hw.loop_doc d hd
    · exact hw.loop_doc d hd

theorem Hub.step_WF (h : Hub) (hw : h.WF) (op : Op) : (h.step op).WF := by
  cases op with
  | httpError status => exact hw
  | accept ok => exact hw
  | logError => exact hw
  | connect c docID =>
      by_cases hc : c = h.nextConn
      · subst hc
        exact Hub.connect_WF h hw docID
      · simpa [Hub.step, hc] using hw
  | read c payload =>
      simp only [Hub.step]
      split
      · exact
          { reg_lt := hw.reg_lt, reg_inj := hw.reg_inj, mem_rm := hw.mem_rm,
            conn_reg := hw.conn_reg, nodup := hw.nodup, out_le := hw.out_le,
            saveQ_le := hw.saveQ_le, loop_doc := hw.loop_doc }
      · exact hw
  | publish c m => exact hw
  | broadcast c b =>
      simp only [Hub.step]
      split
      · exact Hub.broadcast_WF h hw _ b
      · exact hw
  | queueSave c b =>
      simp only [Hub.step]
      split
      · exact Hub.setConn_WF h hw c _ rfl rfl (hw.out_le c)
          (trySend_length_le saveCap _ b (hw.saveQ_le c))
      · exact hw
  | leave c =>
      simp only [Hub.step]
      split
      · refine
          { reg_lt := hw.reg_lt, reg_inj := hw.reg_inj, mem_rm := ?_,
            conn_reg := hw.conn_reg, nodup := ?_, out_le := hw.out_le,
            saveQ_le := hw.saveQ_le, loop_doc := hw.loop_doc }
        · intro r d hd
          simp only [Function.update_apply] at hd
          split at hd
          · rename_i hr
            subst hr
            exact hw.mem_rm _ d ((Room.mem_Leave _ _ _).mp hd).1
          · exact hw.mem_rm r d hd
        · intro r
          simp only [Function.update_apply]
          split
          · exact Room.nodup_Leave _ _ (hw.nodup _)
          · exact hw.nodup r
      · exact hw
  | close c =>
      simp only [Hub.step]
      split
      · exact Hub.setConn_WF h hw c _ rfl rfl (hw.out_le c) (hw.saveQ_le c)
      · exact hw
  | readClosed c =>
      simp only [Hub.step]
      split
      · exact Hub.setConn_WF h hw c _ rfl rfl (hw.out_le c) (hw.saveQ_le c)
      · exact hw
  | deliver m =>
      simp only [Hub.step, Hub.deliver]
      split
      · exact Hub.broadcast_WF h hw _ _
      · exact hw
  | writeOut c =>
      simp only [Hub.step]
      split
      · refine Hub.setConn_WF h hw c _ rfl rfl ?_ (hw.saveQ_le c)
        have := hw.out_le c
        simp only [List.length_drop]
        omega
      · exact hw
  | saveRecv c now =>
      simp only [Hub.step]
      split
      · split
        · exact hw
        · rename_i b rest hq
          split
          · exact hw
          · rename_i r hr
            have h1 := Hub.setConn_WF h hw c { h.connAt c with saveQ := rest } rfl rfl
              (hw.out_le c) (by have := hw.saveQ_le c; rw [hq] at this; simp at this ⊢; omega)
            exact Hub.setLoop_WF _ h1 c r.1 h.db (SaveLoop.step_docID _ _ _ hr)
      · exact hw
  | saveTimer c now saveDur =>
      simp only [Hub.step]
      split
      · split
        · exact hw
        · rename_i r hr
          exact Hub.setLoop_WF h hw c r.1 _ (SaveLoop.step_docID _ _ _ hr)
      · exact hw
  | saveDone c now =>
      simp only [Hub.step]
      split
      · split
        · exact hw
        · rename_i r hr
          exact Hub.setLoop_WF h hw c r.1 h.db (SaveLoop.step_docID _ _ _ hr)
      · exact hw

theorem Hub.run_WF (ops : List Op) (h : Hub) (hw : h.WF) : (h.run ops).WF := by
  induction ops generalizing h with
  | nil => exact hw
  | cons op ops ih => exact ih (h.step op) (Hub.step_WF h hw op)

theorem isSnapshot_iff (payload : Frame) :
    isSnapshot payload = true ↔ 1 < payload.length ∧ payload.head? = some 3 := by
  simp [isSnapshot]

theorem readFrame_snapshot (c : Nat) (docID : String) (payload : Frame)
    (hs : isSnapshot payload = true) :
    readFrame c docID payload =
      [.read c payload, .publish c { DocID := docID, Payload := payload },
        .broadcast c payload, .queueSave c (payload.drop 1)] := by
  simp [readFrame, hs]

theorem readFrame_other (c : Nat) (docID : String) (payload : Frame)
    (hs : ¬ isSnapshot payload = true) :
    readFrame c docID payload =
      [.read c payload, .publish c { DocID := docID, Payload := payload },
        .broadcast c payload] := by
  simp [readFrame, hs]

theorem Hub.step_read_other (h : Hub) (c : Nat) (payload : Frame)
    (hs : ¬ isSnapshot payload = true) : h.step (.read c payload) = h := by
  simp [Hub.step, hs]

theorem Hub.run_readFrame_other (h : Hub) (c : Nat) (docID : String) (payload : Frame)
    (hs : ¬ isSnapshot payload = true) :
    h.run (readFrame c docID payload) = h.step (.broadcast c payload) := by
  rw [readFrame_other c docID payload hs]
  show ((h.step (.read c payload)).step (.publish c _)).step (.broadcast c payload) = _
  rw [Hub.step_read_other h c payload hs]
  rfl

theorem Hub.run_readFrame_snapshot (h : Hub) (c : Nat) (docID : String) (payload : Frame)
    (hs : isSnapshot payload = true) :
    h.run (readFrame c docID payload) =
      ((h.step (.read c payload)).step (.broadcast c payload)).step
        (.queueSave c (payload.drop 1)) := by
  rw [readFrame_snapshot c docID payload hs]
  rfl

/-- What a `broadcast` step leaves untouched. -/
theorem Hub.step_broadcast_fields (h : Hub) (c : Nat) (b : Frame) :
    (h.step (.broadcast c b)).rooms = h.rooms ∧ (h.step (.broadcast c b)).nextRoom = h.nextRoom ∧
    (h.step (.broadcast c b)).roomAt = h.roomAt ∧ (h.step (.broadcast c b)).nextConn = h.nextConn ∧
    (h.step (.broadcast c b)).loopAt = h.loopAt ∧ (h.step (.broadcast c b)).db = h.db ∧
    (h.step (.broadcast c b)).newest = h.newest ∧
    ∀ e, ((h.step (.broadcast c b)).connAt e).saveQ = (h.connAt e).saveQ ∧
      ((h.step (.broadcast c b)).connAt e).docID = (h.connAt e).docID ∧
      ((h.step (.broadcast c b)).connAt e).rm = (h.connAt e).rm ∧
      ((h.step (.broadcast c b)).connAt e).closed = (h.connAt e).closed := by
  by_cases hc : c < h.nextConn
  · simp only [Hub.step, hc, if_true, true_and]
    exact fun e => Room.Broadcast_fields _ _ _ e
  · simp [Hub.step, hc]

/-- A broadcast into room `ra`, registered for `A`, changes at most the `out`
queues of the members of `ra`. -/
theorem Hub.OnlyOutOf_broadcast (h : Hub) (A : String) (ra : Nat) (b : Frame)
    (hreg : h.rooms A = some ra) :
    h.OnlyOutOf { h with connAt := (h.roomAt ra).Broadcast b h.connAt } A := by
  refine ⟨rfl, rfl, rfl, rfl, rfl, rfl, rfl, fun e => ?_⟩
  obtain ⟨h1, h2, h3, h4⟩ := Room.Broadcast_fields (h.roomAt ra) b h.connAt e
  refine ⟨h1, h2, h3, h4, fun hne => ⟨ra, hreg, ?_⟩⟩
  by_contra hmem
  exact hne (Room.Broadcast_not_mem _ b h.connAt e hmem)

theorem Hub.OnlyOutOf_refl (h : Hub) (A : String) : h.OnlyOutOf h A :=
  ⟨rfl, rfl, rfl, rfl, rfl, rfl, rfl, fun _ => ⟨rfl, rfl, rfl, rfl, fun hne => absurd rfl hne⟩⟩

theorem Hub.roomCalls_nil (h : Hub) : h.roomCalls [] = (h, []) := rfl

theorem Hub.roomCalls_cons (h : Hub) (d : String) (ds : List String) :
    h.roomCalls (d :: ds) =
      (((h.room d).1.roomCalls ds).1, (h.room d).2 :: ((h.room d).1.roomCalls ds).2) := rfl

/-- A `Hub.room` call keeps every registration it finds. -/
theorem Hub.room_mono (h : Hub) (docID x : String) (r : Nat) (hx : h.rooms x = some r) :
    (h.room docID).1.rooms x = some r := by
  unfold Hub.room
  cases hreg : h.rooms docID with
  | some rm => exact hx
  | none =>
      have hne : x ≠ docID := by
        rintro rfl
        rw [hreg] at hx
        exact absurd hx (by simp)
      simp [Function.update_noteq hne, hx]

/-- After a sequence of `Hub.room` calls the hub is well formed, earlier
registrations are kept, and the room returned by each call is the one the
final registry holds for the document id of the call. -/
theorem Hub.roomCalls_spec (ds : List String) (h : Hub) (hw : h.WF) :
    (h.roomCalls ds).1.WF ∧ (h.roomCalls ds).2.length = ds.length ∧
    (∀ x r, h.rooms x = some r → (h.roomCalls ds).1.rooms x = some r) ∧
    (∀ (i : Nat) (d : String), ds[i]? = some d →
      ∃ r : Nat, (h.roomCalls ds).2[i]? = some r ∧ (h.roomCalls ds).1.rooms d = some r) := by
  induction ds generalizing h with
  | nil => exact ⟨hw, rfl, fun _ _ hx => hx, fun i d hi => by simp at hi⟩
  | cons d0 ds ih =>
      obtain ⟨h1, h2, h3, h4⟩ := ih (h.room d0).1 (Hub.room_WF h hw d0)
      rw [Hub.roomCalls_cons]
      refine ⟨h1, by simp [h2], fun x r hx => h3 x r (Hub.room_mono h d0 x r hx), ?_⟩
      intro i d hi
      cases i with
      | zero =>
          simp only [List.getElem?_cons_zero, Option.some.injEq] at hi
          subst hi
          exact ⟨(h.room d0).2, by simp, h3 d0 _ (Hub.room_spec h d0).1⟩
      | succ i =>
          simp only [List.getElem?_cons_succ] at hi
          obtain ⟨r, hr1, hr2⟩ := h4 i d hi
          exact ⟨r, by simpa using hr1, hr2⟩

theorem Hub.room_not_mem (h : Hub) (docID : String) (c : Nat)
    (hc : ∀ r, c ∉ (h.roomAt r).clients) : ∀ r, c ∉ ((h.room docID).1.roomAt r).clients := by
  intro r
  unfold Hub.room
  cases h.rooms docID with
  | some rm => exact hc r
  | none =>
      simp only [Function.update_apply]
      split
      · simp [NewRoom]
      · exact hc r

/-- A connection that is a member of no room stays so: `Join` is only ever
called on a connection that `NewConn` has just returned. -/
theorem Hub.Gone_step (h : Hub) (c : Nat) (hg : h.Gone c) (op : Op) : (h.step op).Gone c := by
  obtain ⟨hlt, hno⟩ := hg
  cases op with
  | httpError status => exact ⟨hlt, hno⟩
  | accept ok => exact ⟨hlt, hno⟩
  | logError => exact ⟨hlt, hno⟩
  | publish c1 m => exact ⟨hlt, hno⟩
  | connect c1 docID =>
      simp only [Hub.step]
      split
      · rename_i hc1
        subst hc1
        refine ⟨Nat.lt_succ_of_lt hlt, fun r => ?_⟩
        have hold := Hub.room_not_mem h docID c hno
        simp only [Function.update_apply]
        split
        · intro hmem
          rcases (Room.mem_Join _ _ _).mp hmem with hm | hm
          · exact hold _ hm
          · exact absurd hm (Nat.ne_of_lt hlt)
        · exact hold r
      · exact ⟨hlt, hno⟩
  | leave c1 =>
      simp only [Hub.step]
      split
      · refine ⟨hlt, fun r => ?_⟩
        simp only [Function.update_apply]
        split
        · intro hmem
          exact hno _ ((Room.mem_Leave _ _ _).mp hmem).1
        · exact hno r
      · exact ⟨hlt, hno⟩
  | read c1 payload =>
      simp only [Hub.step]
      split <;> exact ⟨hlt, hno⟩
  | broadcast c1 b =>
      simp only [Hub.step]
      split <;> exact ⟨hlt, hno⟩
  | queueSave c1 b =>
      simp only [Hub.step]
      split <;> exact ⟨hlt, hno⟩
  | close c1 =>
      simp only [Hub.step]
      split <;> exact ⟨hlt, hno⟩
  | readClosed c1 =>
      simp only [Hub.step]
      split <;> exact ⟨hlt, hno⟩
  | deliver m =>
      simp only [Hub.step, Hub.deliver]
      split <;> exact ⟨hlt, hno⟩
  | writeOut c1 =>
      simp only [Hub.step]
      split <;> exact ⟨hlt, hno⟩
  | saveRecv c1 now =>
      simp only [Hub.step]
      split
      · split
        · exact ⟨hlt, hno⟩
        · split <;> exact ⟨hlt, hno⟩
      · exact ⟨hlt, hno⟩
  | saveTimer c1 now saveDur =>
      simp only [Hub.step]
      split
      · split <;> exact ⟨hlt, hno⟩
      · exact ⟨hlt, hno⟩
  | saveDone c1 now =>
      simp only [Hub.step]
      split
      · split <;> exact ⟨hlt, hno⟩
      · exact ⟨hlt, hno⟩

theorem Hub.Gone_run (ops : List Op) (h : Hub) (c : Nat) (hg : h.Gone c) : (h.run ops).Gone c := by
  induction ops generalizing h with
  | nil => exact hg
  | cons op ops ih => exact ih (h.step op) (Hub.Gone_step h c hg op)

/-- After `rm.Leave(c)` the connection is a member of no room. -/
theorem Hub.leave_Gone (h : Hub) (hw : h.WF) (c : Nat) (hc : c < h.nextConn) :
    (h.step (.leave c)).Gone c := by
  simp only [Hub.step, hc, if_true]
  refine ⟨hc, fun r => ?_⟩
  simp only [Function.update_apply]
  split
  · intro hmem
    exact ((Room.mem_Leave _ _ _).mp hmem).2 rfl
  · rename_i hr
    intro hmem
    exact hr (hw.mem_rm r c hmem).2.symm

theorem Precedes_last_two (a b : Op) (pre : List Op) : Precedes a b (pre ++ [a, b]) := by
  refine ⟨pre.length + 1, by simp, pre.length, Nat.lt_succ_self _, ?_, ?_⟩
  · rw [List.getElem?_append_right (Nat.le_refl _)]
    simp
  · rw [List.getElem?_append_right (by omega)]
    simp

theorem close_not_mem_readFrames (c : Nat) (docID : String) (frames : List Frame) :
    Op.close c ∉ frames.flatMap (readFrame c docID) := by
  intro hmem
  obtain ⟨p, -, hp⟩ := List.mem_flatMap.mp hmem
  unfold readFrame at hp
  split at hp <;> simp at hp

theorem leave_not_mem_readFrames (c : Nat) (docID : String) (frames : List Frame) :
    Op.leave c ∉ frames.flatMap (readFrame c docID) := by
  intro hmem
  obtain ⟨p, -, hp⟩ := List.mem_flatMap.mp hmem
  unfold readFrame at hp
  split at hp <;> simp at hp

theorem Precedes_last_two_of_three (x a b : Op) (pre : List Op) :
    Precedes a b (pre ++ [x, a, b]) := by
  have h : pre ++ [x, a, b] = (pre ++ [x]) ++ [a, b] := by simp
  rw [h]
  exact Precedes_last_two a b (pre ++ [x])

/-- A closed socket stays closed, whatever the process does next. -/
theorem Hub.closed_step (h : Hub) (c : Nat) (op : Op) (hc : c < h.nextConn)
    (hcl : (h.connAt c).closed = true) :
    c < (h.step op).nextConn ∧ ((h.step op).connAt c).closed = true := by
  have hupd : ∀ (d : Nat) (v : Conn), (d = c → v.closed = true) →
      (Function.update h.connAt d v c).closed = true := by
    intro d v hv
    rw [Function.update_apply]
    split
    · rename_i hcd
      exact hv hcd.symm
    · exact hcl
  cases op with
  | httpError status => exact ⟨hc, hcl⟩
  | accept ok => exact ⟨hc, hcl⟩
  | logError => exact ⟨hc, hcl⟩
  | publish c1 m => exact ⟨hc, hcl⟩
  | connect c1 docID =>
      simp only [Hub.step]
      split
      · rename_i hc1
        subst hc1
        refine ⟨Nat.lt_succ_of_lt hc, ?_⟩
        have hne : c ≠ h.nextConn := Nat.ne_of_lt hc
        simp only [Function.update_noteq hne]
        rw [(Hub.room_spec h docID).2.2.1]
        exact hcl
      · exact ⟨hc, hcl⟩
  | read c1 payload =>
      simp only [Hub.step]
      split <;> exact ⟨hc, hcl⟩
  | readClosed c1 =>
      simp only [Hub.step]
      split
      · exact ⟨hc, hupd c1 _ (fun _ => rfl)⟩
      · exact ⟨hc, hcl⟩
  | broadcast c1 b =>
      simp only [Hub.step]
      split
      · exact ⟨hc, ((Room.Broadcast_fields _ b h.connAt c).2.2.2).trans hcl⟩
      · exact ⟨hc, hcl⟩
  | deliver m =>
      simp only [Hub.step, Hub.deliver]
      split
      · exact ⟨hc, ((Room.Broadcast_fields _ m.Payload h.connAt c).2.2.2).trans hcl⟩
      · exact ⟨hc, hcl⟩
  | queueSave c1 b =>
      simp only [Hub.step]
      split
      · exact ⟨hc, hupd c1 _ (fun hcd => by rw [hcd]; exact hcl)⟩
      · exact ⟨hc, hcl⟩
  | leave c1 =>
      simp only [Hub.step]
      split <;> exact ⟨hc, hcl⟩
  | close c1 =>
      simp only [Hub.step]
      split
      · exact ⟨hc, hupd c1 _ (fun _ => rfl)⟩
      · exact ⟨hc, hcl⟩
  | writeOut c1 =>
      simp only [Hub.step]
      split
      · exact ⟨hc, hupd c1 _ (fun hcd => by rw [hcd]; exact hcl)⟩
      · exact ⟨hc, hcl⟩
  | saveRecv c1 now =>
      simp only [Hub.step]
      split
      · split
        · exact ⟨hc, hcl⟩
        · split
          · exact ⟨hc, hcl⟩
          · exact ⟨hc, hupd c1 _ (fun hcd => by rw [hcd]; exact hcl)⟩
      · exact ⟨hc, hcl⟩
  | saveTimer c1 now saveDur =>
      simp only [Hub.step]
      split
      · split <;> exact ⟨hc, hcl⟩
      · exact ⟨hc, hcl⟩
  | saveDone c1 now =>
      simp only [Hub.step]
      split
      · split <;> exact ⟨hc, hcl⟩
      · exact ⟨hc, hcl⟩

theorem Hub.closed_run (ops : List Op) (h : Hub) (c : Nat) (hc : c < h.nextConn)
    (hcl : (h.connAt c).closed = true) : ((h.run ops).connAt c).closed = true := by
  induction ops generalizing h with
  | nil => exact hcl
  | cons op ops ih =>
      obtain ⟨h1, h2⟩ := Hub.closed_step h c op hc hcl
      exact ih (h.step op) h1 h2

/-! ## The claims -/

/-- C1: save coalescing. From any state of a running save loop, let the
payloads of `arr` (at least one) be taken from the save queue at non-decreasing
instants and let the timer case be taken at an instant `T` at least
`debounceDur` (250ms) after the last of them. Then this schedule issues exactly
one `SaveDoc` call, at `T`, for the connection's `docID`, with the last payload
of `arr`, and leaves the pending slot empty. Moreover after any of the arrivals
the timer case cannot be taken before 250ms have passed since that arrival, so
no write comes between arrivals that follow one another within the window. -/
theorem save_coalescing (s : SaveLoop) (arr : List (Nat × Frame)) (hne : arr ≠ [])
    (T saveDur : Nat)
    (hrun : s.exited = false)
    (hts : List.Chain (· ≤ ·) s.clock (arr.map Prod.fst))
    (hT : (arr.getLast hne).1 + debounceDur ≤ T) :
    (∃ s1, s.run (arrivals arr ++ [SaveEvent.timerC T saveDur]) =
        some (s1, [{ time := T, id := s.docID, blob := (arr.getLast hne).2 }])
      ∧ s1.latest = none ∧ s1.exited = false) ∧
    (∀ (a1 a2 : List (Nat × Frame)) (h1 : a1 ≠ []) (T1 d1 : Nat), arr = a1 ++ a2 →
        T1 < (a1.getLast h1).1 + debounceDur →
        s.run (arrivals a1 ++ [SaveEvent.timerC T1 d1]) = none) := by
  refine ⟨⟨⟨s.docID, none, some (T + saveDur + debounceDur), T + saveDur, s.exited⟩,
    ?_, rfl, hrun⟩, ?_⟩
  · rw [SaveLoop.run_append, SaveLoop.run_arrivals arr hne s hrun hts]
    have h1 : ¬ T < (arr.getLast hne).1 := by omega
    have h2 : ¬ T < (arr.getLast hne).1 + debounceDur := by omega
    simp [SaveLoop.run, SaveLoop.step, SaveEvent.now, hrun, h1, h2]
  · intro a1 a2 h1 T1 d1 harr hT1
    have hts1 : List.Chain (· ≤ ·) s.clock (a1.map Prod.fst) := by
      rw [harr, List.map_append] at hts
      exact hts.sublist (List.sublist_append_left _ _)
    rw [SaveLoop.run_append, SaveLoop.run_arrivals a1 h1 s hrun hts1]
    simp [SaveLoop.run, SaveLoop.step, SaveEvent.now, hrun, hT1]

theorem save_coalescing_witness :
    (∃ s1, (SaveLoop.init "doc1" 0).run
        (arrivals [(10, [0x41]), (20, [0x41, 0x42])] ++ [SaveEvent.timerC 250000020 5]) =
        some (s1, [{ time := 250000020, id := "doc1", blob := [0x41, 0x42] }])
      ∧ s1.latest = none ∧ s1.exited = false) ∧
    (∀ (a1 a2 : List (Nat × Frame)) (h1 : a1 ≠ []) (T1 d1 : Nat),
        [(10, [0x41]), (20, [0x41, 0x42])] = a1 ++ a2 →
        T1 < (a1.getLast h1).1 + debounceDur →
        (SaveLoop.init "doc1" 0).run (arrivals a1 ++ [SaveEvent.timerC T1 d1]) = none) :=
  save_coalescing (SaveLoop.init "doc1" 0) [(10, [0x41]), (20, [0x41, 0x42])] (by decide)
    250000020 5 (by decide) (by simp [SaveLoop.init]) (by decide)

/-- The scenario of section 8 of the specification: one snapshot `AB` sent on
`doc1` and 300ms of silence give exactly one write of `0x41, 0x42` for `doc1`. -/
theorem oneSnapshot_saved_once :
    (NewHub.run oneSnapshot).db.map Flush.call =
      [{ time := 300 * Millisecond, id := "doc1", blob := [0x41, 0x42] }] := by
  decide

/-- C2: snapshot-tag rule of the read loop. For a frame read from connection
`c`, `QueueSave` is called on some connection with some payload exactly when
the frame is longer than one byte and its first byte is 3, and then the
connection is `c` and the payload is the frame without its first byte. For any
other frame the read-loop iteration leaves every save queue, every save loop
and the list of `SaveDoc` calls as they were; for a snapshot frame the save
queue of `c` receives the non-blocking send of `payload[1:]`. -/
theorem snapshot_tag_rule (c : Nat) (docID : String) (payload : Frame) (h : Hub) :
    (∀ d b, Op.queueSave d b ∈ readFrame c docID payload ↔
        (1 < payload.length ∧ payload.head? = some 3) ∧ d = c ∧ b = payload.drop 1) ∧
    (¬ (1 < payload.length ∧ payload.head? = some 3) →
        (∀ d, ((h.run (readFrame c docID payload)).connAt d).saveQ = (h.connAt d).saveQ) ∧
        (h.run (readFrame c docID payload)).loopAt = h.loopAt ∧
        (h.run (readFrame c docID payload)).db = h.db) ∧
    ((1 < payload.length ∧ payload.head? = some 3) → c < h.nextConn →
        ((h.run (readFrame c docID payload)).connAt c).saveQ =
          trySend saveCap (h.connAt c).saveQ (payload.drop 1)) := by
  refine ⟨?_, ?_, ?_⟩
  · intro d b
    by_cases hs : isSnapshot payload = true
    · have := (isSnapshot_iff payload).mp hs
      simp [readFrame, hs, this]
    · have hn : ¬ (1 < payload.length ∧ payload.head? = some 3) :=
        fun hh => hs ((isSnapshot_iff payload).mpr hh)
      simp [readFrame, hs, hn]
  · intro hn
    have hs : ¬ isSnapshot payload = true := fun hh => hn ((isSnapshot_iff payload).mp hh)
    rw [Hub.run_readFrame_other h c docID payload hs]
    obtain ⟨-, -, -, -, hl, hdb, -, hconn⟩ := Hub.step_broadcast_fields h c payload
    exact ⟨fun d => (hconn d).1, hl, hdb⟩
  · intro hy hc
    have hs : isSnapshot payload = true := (isSnapshot_iff payload).mpr hy
    rw [Hub.run_readFrame_snapshot h c docID payload hs]
    have hread : h.step (.read c payload) =
        { h with newest :=
            Function.update h.newest (h.connAt c).docID (some (payload.drop 1)) } := by
      simp [Hub.step, hs, hc]
    generalize h.step (.read c payload) = h1 at hread
    obtain ⟨-, -, -, hn, -, -, -, hconn⟩ := Hub.step_broadcast_fields h1 c payload
    generalize h1.step (.broadcast c payload) = h2 at hn hconn
    have hc2 : c < h2.nextConn := by rw [hn, hread]; exact hc
    have h1c : h1.connAt c = h.connAt c := by rw [hread]
    simp only [Hub.step, hc2, if_true, Function.update_same, Conn.QueueSave]
    rw [(hconn c).1, h1c]

/-- C3: backpressure on the outbound queue. A connection whose `out` queue
already holds 256 frames is left exactly as it was by `Room.Broadcast`, so the
new frame is the one dropped and the queued frames are kept in order; every
member with room in its queue still receives the frame at the tail; and after
any sequence of steps of the process, broadcasts included, no `out` queue
holds more than 256 frames. -/
theorem backpressure_drops_newest (r : Room) (b : Frame) (heap : Nat → Conn) (c : Nat)
    (hkeys : r.clients.Nodup) (hfull : (heap c).out.length = 256) :
    r.Broadcast b heap c = heap c ∧
    (∀ d ∈ r.clients, (heap d).out.length < 256 →
        (r.Broadcast b heap d).out = (heap d).out ++ [b]) ∧
    (∀ ops d, ((NewHub.run ops).connAt d).out.length ≤ 256) := by
  refine ⟨Room.Broadcast_full r b heap c (by rw [hfull]; exact Nat.le_refl _), ?_, ?_⟩
  · intro d hd hlt
    rw [Room.Broadcast_mem r b heap d hkeys hd]
    exact trySend_room outCap _ b hlt
  · intro ops d
    exact (Hub.run_WF ops NewHub NewHub_WF).out_le d

theorem backpressure_drops_newest_witness :
    Room.Broadcast { clients := [0, 1] } [9] slowClient 0 = slowClient 0 ∧
    (∀ d ∈ ({ clients := [0, 1] } : Room).clients, (slowClient d).out.length < 256 →
        (Room.Broadcast { clients := [0, 1] } [9] slowClient d).out
          = (slowClient d).out ++ [[9]]) ∧
    (∀ ops d, ((NewHub.run ops).connAt d).out.length ≤ 256) :=
  backpressure_drops_newest { clients := [0, 1] } [9] slowClient 0 (by decide)
    (List.length_replicate 256 [7])

/-- C4: no cross-document leakage. In every hub reached from `NewHub`, for
distinct document ids `A` and `B` and a member `d` of the room registered for
`B`: the local broadcast by a connection `c` attached to `A`, and the bus
delivery of a message for `A`, leave connection `d` as it was; either step
changes nothing but the `out` queues of the members of the room registered for
`A`; and a bus delivery for a document with no registered room leaves the hub
as it was, the registry included. -/
theorem no_cross_document_leakage (ops : List Op) (A B : String) (hAB : A ≠ B) (b : Frame)
    (c d rb : Nat) (hB : (NewHub.run ops).rooms B = some rb)
    (hd : d ∈ ((NewHub.run ops).roomAt rb).clients) :
    ((NewHub.run ops).deliver { DocID := A, Payload := b }).connAt d = (NewHub.run ops).connAt d ∧
    (NewHub.run ops).OnlyOutOf ((NewHub.run ops).deliver { DocID := A, Payload := b }) A ∧
    ((NewHub.run ops).rooms A = none →
        (NewHub.run ops).deliver { DocID := A, Payload := b } = NewHub.run ops) ∧
    (c < (NewHub.run ops).nextConn → ((NewHub.run ops).connAt c).docID = A →
        ((NewHub.run ops).step (.broadcast c b)).connAt d = (NewHub.run ops).connAt d ∧
        (NewHub.run ops).OnlyOutOf ((NewHub.run ops).step (.broadcast c b)) A) := by
  have hw := Hub.run_WF ops NewHub NewHub_WF
  generalize NewHub.run ops = h at hw hB hd
  have hdrm := (hw.mem_rm rb d hd).2
  have hnot : ∀ ra, h.rooms A = some ra → d ∉ (h.roomAt ra).clients := by
    intro ra hra hmem
    have := (hw.mem_rm ra d hmem).2
    rw [hdrm] at this
    subst this
    exact hAB (hw.reg_inj A B rb hra hB)
  refine ⟨?_, ?_, ?_, ?_⟩
  · unfold Hub.deliver
    cases hra : h.rooms A with
    | none => rfl
    | some ra => exact Room.Broadcast_not_mem _ b h.connAt d (hnot ra hra)
  · unfold Hub.deliver
    cases hra : h.rooms A with
    | none => exact Hub.OnlyOutOf_refl h A
    | some ra => exact Hub.OnlyOutOf_broadcast h A ra b hra
  · intro hnone
    simp [Hub.deliver, hnone]
  · intro hc hdoc
    have hra := hw.conn_reg c hc
    rw [hdoc] at hra
    simp only [Hub.step, hc, if_true]
    exact ⟨Room.Broadcast_not_mem _ b h.connAt d (hnot _ hra),
      Hub.OnlyOutOf_broadcast h A _ b hra⟩

theorem no_cross_document_leakage_witness :
    ((NewHub.run twoDocs).deliver { DocID := "a", Payload := [1] }).connAt 1
      = (NewHub.run twoDocs).connAt 1 ∧
    (NewHub.run twoDocs).OnlyOutOf
      ((NewHub.run twoDocs).deliver { DocID := "a", Payload := [1] }) "a" ∧
    ((NewHub.run twoDocs).rooms "a" = none →
        (NewHub.run twoDocs).deliver { DocID := "a", Payload := [1] } = NewHub.run twoDocs) ∧
    (0 < (NewHub.run twoDocs).nextConn → ((NewHub.run twoDocs).connAt 0).docID = "a" →
        ((NewHub.run twoDocs).step (.broadcast 0 [1])).connAt 1 = (NewHub.run twoDocs).connAt 1 ∧
        (NewHub.run twoDocs).OnlyOutOf ((NewHub.run twoDocs).step (.broadcast 0 [1])) "a") :=
  no_cross_document_leakage twoDocs "a" "b" (by decide) [1] 0 1 1 (by decide) (by decide)

/-- C5, as stated, fails: in the steps performed for the frame `[1, 255]` read
from connection 0 of `doc1`, the local broadcast does not come before the
publish. -/
theorem local_fast_path_counterexample :
    ¬ Precedes (.broadcast 0 [1, 255]) (.publish 0 { DocID := "doc1", Payload := [1, 255] })
        (readFrame 0 "doc1" [1, 255]) := by
  decide

/-- C5, amended: for every frame read from a connection the steps of the
read-loop iteration are the read, then the blocking `RedisBus.Publish` of the
frame under the connection's document id, then the local `Room.Broadcast` of
the same frame, then the optional `QueueSave`; so the publish comes before the
local broadcast. -/
theorem publish_precedes_local_broadcast (c : Nat) (docID : String) (payload : Frame) :
    (∃ rest, readFrame c docID payload =
        [.read c payload, .publish c { DocID := docID, Payload := payload },
          .broadcast c payload] ++ rest ∧
        ∀ op ∈ rest, op = Op.queueSave c (payload.drop 1)) ∧
    Precedes (.publish c { DocID := docID, Payload := payload }) (.broadcast c payload)
      (readFrame c docID payload) := by
  refine ⟨⟨_, rfl, ?_⟩, ?_⟩
  · intro op hop
    split at hop
    · simpa using hop
    · simp at hop
  · refine ⟨2, ?_, 1, by decide, ?_, ?_⟩
    · simp [readFrame]
    · simp [readFrame]
    · simp [readFrame]

/-- C6, as stated, fails: with two connections attached to `doc1`, the save
loop of connection 0 writes the payload `[1]` at 250ms although the process
received the snapshot frame `[3, 2]` for `doc1` on connection 1 at 100ms. -/
theorem freshness_counterexample : ¬ (NewHub.run twoWriters).Fresh := by
  decide

/-- C6, amended: whenever the save loop of a connection issues a durable
write, the document id is the connection's and the bytes written are the
payload that this loop most recently took from its own save queue: the write
is the loop's very next step after taking that payload, so no payload the loop
took before it, and none it took after it, is written in its place. Frames
received on other connections of the document and payloads not yet taken from
the queue are not reflected. -/
theorem flush_writes_last_dequeued (docID : String) (start : Nat) (es : List SaveEvent)
    (s : SaveLoop) (ws : List SaveCall)
    (hrun : (SaveLoop.init docID start).run es = some (s, ws)) :
    ∀ w ∈ ws, w.id = docID ∧
      ∃ pre t saveDur post,
        es = pre ++ [SaveEvent.recv t (some w.blob), SaveEvent.timerC w.time saveDur] ++ post := by
  intro w hw
  obtain ⟨hid, hsrc⟩ := SaveLoop.run_flush_source es _ s ws hrun w hw
  refine ⟨hid, ?_⟩
  rcases hsrc with ⟨pre, t, sd, post, hes, -⟩ | ⟨hlat, -, -⟩
  · exact ⟨pre, t, sd, post, hes⟩
  · simp [SaveLoop.init] at hlat

theorem flush_writes_last_dequeued_witness :
    ({ time := 250000005, id := "doc1", blob := [2] } : SaveCall).id = "doc1" ∧
      ∃ pre t saveDur post,
        [SaveEvent.recv 0 (some [1]), .recv 5 (some [2]), .timerC 250000005 0,
            .timerC 500000005 0] =
          pre ++ [SaveEvent.recv t
                (some ({ time := 250000005, id := "doc1", blob := [2] } : SaveCall).blob),
              SaveEvent.timerC ({ time := 250000005, id := "doc1", blob := [2] } : SaveCall).time
                saveDur] ++ post :=
  flush_writes_last_dequeued "doc1" 0
    [.recv 0 (some [1]), .recv 5 (some [2]), .timerC 250000005 0, .timerC 500000005 0]
    { docID := "doc1", latest := none, timer := some 750000005, clock := 500000005,
      exited := false }
    [{ time := 250000005, id := "doc1", blob := [2] }] (by decide)
    { time := 250000005, id := "doc1", blob := [2] } (by decide)

/-- C7: single room per document. For every sequence `ds` of `Hub.room` calls
from a new hub, two calls return the same room exactly when they were given
the same document id. In the hub `h` these calls leave, a further call for a
registered id returns the registered room and leaves the hub unchanged, and a
call for an unregistered id registers a room that was registered for no id
before and has no member, and changes no other registry entry and no other
room. -/
theorem single_room_per_document (ds : List String) (d : String) :
    (∀ i j : Nat, i < ds.length → j < ds.length →
        ((NewHub.roomCalls ds).2[i]? = (NewHub.roomCalls ds).2[j]? ↔ ds[i]? = ds[j]?)) ∧
    (∀ r, (NewHub.roomCalls ds).1.rooms d = some r →
        (NewHub.roomCalls ds).1.room d = ((NewHub.roomCalls ds).1, r)) ∧
    ((NewHub.roomCalls ds).1.rooms d = none →
        (((NewHub.roomCalls ds).1.room d).1.rooms d = some ((NewHub.roomCalls ds).1.room d).2 ∧
          (((NewHub.roomCalls ds).1.room d).1.roomAt ((NewHub.roomCalls ds).1.room d).2).clients
            = [] ∧
          (∀ x, (NewHub.roomCalls ds).1.rooms x ≠ some ((NewHub.roomCalls ds).1.room d).2) ∧
          (∀ x, x ≠ d →
            ((NewHub.roomCalls ds).1.room d).1.rooms x = (NewHub.roomCalls ds).1.rooms x) ∧
          (∀ r, r ≠ ((NewHub.roomCalls ds).1.room d).2 →
            ((NewHub.roomCalls ds).1.room d).1.roomAt r = (NewHub.roomCalls ds).1.roomAt r))) := by
  obtain ⟨hw, hlen, -, hres⟩ := Hub.roomCalls_spec ds NewHub NewHub_WF
  generalize NewHub.roomCalls ds = q at hw hlen hres
  obtain ⟨h, rs⟩ := q
  simp only at hw hlen hres ⊢
  refine ⟨?_, ?_, ?_⟩
  · intro i j hi hj
    obtain ⟨di, hdi⟩ : ∃ x, ds[i]? = some x := ⟨ds[i], List.getElem?_eq_getElem hi⟩
    obtain ⟨dj, hdj⟩ : ∃ x, ds[j]? = some x := ⟨ds[j], List.getElem?_eq_getElem hj⟩
    obtain ⟨ri, hri, hregi⟩ := hres i di hdi
    obtain ⟨rj, hrj, hregj⟩ := hres j dj hdj
    rw [hri, hrj, hdi, hdj]
    constructor
    · intro heq
      simp only [Option.some.injEq] at heq
      subst heq
      rw [hw.reg_inj di dj ri hregi hregj]
    · intro heq
      simp only [Option.some.injEq] at heq
      subst heq
      rw [hregi] at hregj
      exact hregj
  · intro r hr
    simp [Hub.room, hr]
  · intro hnone
    simp only [Hub.room, hnone, Function.update_same, true_and]
    refine ⟨rfl, ?_, ?_, ?_⟩
    · intro x hx
      exact absurd (hw.reg_lt x _ hx) (Nat.lt_irrefl _)
    · intro x hx
      exact Function.update_noteq hx _ _
    · intro r hr
      exact Function.update_noteq hr _ _

/-- C8, as stated, fails: one client connects to `doc1`, sends the frame
`[1, 255]` and closes the websocket connection. When `Read` reports closed,
after six steps of `ServeWS`, the socket is closed and connection 0 is still a
member of its room; `rm.Leave` runs only afterwards. -/
theorem disconnect_cleanup_counterexample :
    ¬ ∀ k, (NewHub.run ((ServeWS 0 "doc1" true [[1, 255]]).take k)).LeftBeforeClosed 0 := by
  intro h
  exact absurd (h 6) (by decide)

/-- C8, amended: the order of the two calls. For a served connection
(non-empty `docId`, successful upgrade) the steps of `ServeWS` end with the
`Read` that reports closed, then `rm.Leave(c)`, then `c.Close()`, no `Leave`
and no `Close` coming earlier, so `Leave` precedes `Close`. Let the process be
in any hub reached from `NewHub` in which `c` exists and is still a member of
its room, as it is when the read loop reports closed. Before `Leave` a
`Room.Broadcast` on the room still performs its non-blocking send on the queue
of `c`. Once `Leave` has run, at every later moment (the moment of the `Close`
call and any moment after it) `c` is a member of no room and a
`Room.Broadcast` on any room leaves `c` exactly as it was; and from the `Close`
call on the socket is closed for good. -/
theorem disconnect_cleanup (ops : List Op) (c : Nat) (docID : String) (frames : List Frame)
    (hdoc : docID ≠ "") (hc : c < (NewHub.run ops).nextConn)
    (hm : c ∈ ((NewHub.run ops).roomAt ((NewHub.run ops).connAt c).rm).clients) :
    (∃ pre, ServeWS c docID true frames = pre ++ [.readClosed c, .leave c, .close c] ∧
        Op.leave c ∉ pre ∧ Op.close c ∉ pre) ∧
    Precedes (.leave c) (.close c) (ServeWS c docID true frames) ∧
    (∀ b, ((NewHub.run ops).roomAt ((NewHub.run ops).connAt c).rm).Broadcast b
        (NewHub.run ops).connAt c =
      { (NewHub.run ops).connAt c with
          out := trySend outCap ((NewHub.run ops).connAt c).out b }) ∧
    (∀ later b r,
        c ∉ ((((NewHub.run ops).step (.leave c)).run later).roomAt r).clients ∧
        ((((NewHub.run ops).step (.leave c)).run later).roomAt r).Broadcast b
            (((NewHub.run ops).step (.leave c)).run later).connAt c =
          (((NewHub.run ops).step (.leave c)).run later).connAt c) ∧
    (∀ later,
        (((((NewHub.run ops).step (.leave c)).step (.close c)).run later).connAt c).closed
          = true) := by
  have hw := Hub.run_WF ops NewHub NewHub_WF
  have hserve : ServeWS c docID true frames =
      ([.accept true, .connect c docID] ++ frames.flatMap (readFrame c docID))
        ++ [.readClosed c, .leave c, .close c] := by
    simp [ServeWS, hdoc]
  refine ⟨⟨_, hserve, ?_, ?_⟩, ?_, ?_, ?_, ?_⟩
  · intro hmem
    rcases List.mem_append.mp hmem with h1 | h1
    · simp at h1
    · exact leave_not_mem_readFrames c docID frames h1
  · intro hmem
    rcases List.mem_append.mp hmem with h1 | h1
    · simp at h1
    · exact close_not_mem_readFrames c docID frames h1
  · rw [hserve]
    exact Precedes_last_two_of_three _ _ _ _
  · intro b
    exact Room.Broadcast_mem _ b _ c (hw.nodup _) hm
  · intro later b r
    have hg := Hub.Gone_run later _ c (Hub.leave_Gone _ hw c hc)
    exact ⟨hg.2 r, Room.Broadcast_not_mem _ b _ c (hg.2 r)⟩
  · intro later
    have hg := Hub.leave_Gone _ hw c hc
    generalize (NewHub.run ops).step (.leave c) = h1 at hg
    apply Hub.closed_run later (h1.step (.close c)) c
    · simp only [Hub.step, hg.1, if_true]
    · simp [Hub.step, hg.1, Conn.Close]

theorem disconnect_cleanup_witness :
    (∃ pre, ServeWS 0 "doc1" true [[1, 255]] = pre ++ [.readClosed 0, .leave 0, .close 0] ∧
        Op.leave 0 ∉ pre ∧ Op.close 0 ∉ pre) ∧
    Precedes (.leave 0) (.close 0) (ServeWS 0 "doc1" true [[1, 255]]) ∧
    (∀ b, ((NewHub.run clientCloses).roomAt ((NewHub.run clientCloses).connAt 0).rm).Broadcast b
        (NewHub.run clientCloses).connAt 0 =
      { (NewHub.run clientCloses).connAt 0 with
          out := trySend outCap ((NewHub.run clientCloses).connAt 0).out b }) ∧
    (∀ later b r,
        0 ∉ ((((NewHub.run clientCloses).step (.leave 0)).run later).roomAt r).clients ∧
        ((((NewHub.run clientCloses).step (.leave 0)).run later).roomAt r).Broadcast b
            (((NewHub.run clientCloses).step (.leave 0)).run later).connAt 0 =
          (((NewHub.run clientCloses).step (.leave 0)).run later).connAt 0) ∧
    (∀ later,
        (((((NewHub.run clientCloses).step (.leave 0)).step (.close 0)).run later).connAt
          0).closed = true) :=
  disconnect_cleanup clientCloses 0 "doc1" [[1, 255]] (by decide) (by decide) (by decide)

/-- The hub of the witness, step by step: when the read loop of connection 0
reports closed the socket is closed and the connection is the one member of
room 0, holding its own frame in its queue; `Leave` empties the room; a
broadcast before `Leave` reaches the queue and a broadcast after it does
not. -/
theorem clientCloses_trace :
    clientCloses = (ServeWS 0 "doc1" true [[1, 255]]).take 6 ∧
    ((NewHub.run clientCloses).connAt 0).closed = true ∧
    ((NewHub.run clientCloses).roomAt 0).clients = [0] ∧
    ((NewHub.run clientCloses).connAt 0).out = [[1, 255]] ∧
    (((NewHub.run clientCloses).step (.leave 0)).roomAt 0).clients = [] ∧
    (((NewHub.run clientCloses).step (.deliver { DocID := "doc1", Payload := [9] })).connAt
      0).out = [[1, 255], [9]] ∧
    ((((NewHub.run clientCloses).step (.leave 0)).step
      (.deliver { DocID := "doc1", Payload := [9] })).connAt 0).out = [[1, 255]] := by
  decide

/-- C9: write-rate bound of the debounced save loop. For every schedule of
`select` cases that the loop of one connection can run from its start, any two
`SaveDoc` calls it issues are at least `debounceDur` (250ms) apart, so at most
one call falls in any window of 250ms. -/
theorem write_rate_bound (docID : String) (start : Nat) (es : List SaveEvent)
    (s : SaveLoop) (ws : List SaveCall)
    (hrun : (SaveLoop.init docID start).run es = some (s, ws)) :
    ws.Pairwise (fun a b => a.time + debounceDur ≤ b.time) ∧
      ∀ t, (ws.filter fun w => decide (t ≤ w.time ∧ w.time < t + debounceDur)).length ≤ 1 := by
  have hp := (SaveLoop.run_spaced es (SaveLoop.init docID start) 0 (Nat.zero_le _)
    (by simp [SaveLoop.init]) s ws hrun).2
  refine ⟨hp, fun t => ?_⟩
  have hf := hp.filter (fun w => decide (t ≤ w.time ∧ w.time < t + debounceDur))
  generalize hl : ws.filter (fun w => decide (t ≤ w.time ∧ w.time < t + debounceDur)) = l at hf
  have hmem : ∀ w ∈ l, t ≤ w.time ∧ w.time < t + debounceDur := by
    intro w hw
    rw [← hl] at hw
    simpa using (List.mem_filter.mp hw).2
  match l, hf, hmem with
  | [], _, _ => simp
  | [_], _, _ => simp
  | a :: b :: _, hf, hmem =>
      exfalso
      have hab := (List.pairwise_cons.mp hf).1 b (by simp)
      have ha := hmem a (by simp)
      have hb := hmem b (by simp)
      omega

theorem write_rate_bound_witness :
    [({ time := 250000000, id := "doc1", blob := [1] } : SaveCall),
      { time := 500000005, id := "doc1", blob := [2] }].Pairwise
        (fun a b => a.time + debounceDur ≤ b.time) ∧
      ∀ t, ([({ time := 250000000, id := "doc1", blob := [1] } : SaveCall),
          { time := 500000005, id := "doc1", blob := [2] }].filter
            fun w => decide (t ≤ w.time ∧ w.time < t + debounceDur)).length ≤ 1 :=
  write_rate_bound "doc1" 0
    [.recv 0 (some [1]), .timerC 250000000 3, .recv 250000005 (some [2]),
      .timerC 500000005 0]
    { docID := "doc1", latest := none, timer := some 750000005, clock := 500000005,
      exited := false }
    _ (by decide)

/-- C10, as stated, fails: for a message whose deserialization reports an
error after `DocID` has been assigned, the callback is invoked although the
message is malformed. -/
theorem subscribe_filter_counterexample :
    ¬ ((RedisBus.onMessage (fun _ : Unit => wrongPayloadType) ()).isSome = true ↔
        ((fun _ : Unit => wrongPayloadType) ()).err = false ∧
          ((fun _ : Unit => wrongPayloadType) ()).bm.DocID ≠ "") := by
  decide

/-- C10, amended: for every raw message the callback is invoked exactly when
the `BusMessage` that deserialization leaves, its error being ignored, has a
non-empty `DocID`, and it is invoked with that message; a message with an empty
or missing `DocID`, and a message whose deserialization fails leaving the zero
`BusMessage`, is discarded; over a stream of messages the invocations are the
kept messages in delivery order. -/
theorem subscribe_filters_on_docid {Raw : Type} (unmarshal : Raw → Unmarshaled) (raw : Raw)
    (raws : List Raw) :
    ((RedisBus.onMessage unmarshal raw).isSome = true ↔ (unmarshal raw).bm.DocID ≠ "") ∧
    (∀ m, RedisBus.onMessage unmarshal raw = some m → m = (unmarshal raw).bm) ∧
    ((unmarshal raw).bm.DocID = "" → RedisBus.onMessage unmarshal raw = none) ∧
    ((unmarshal raw).bm = { DocID := "", Payload := [] } →
        RedisBus.onMessage unmarshal raw = none) ∧
    RedisBus.Subscribe unmarshal raws =
      (raws.map fun x => (unmarshal x).bm).filter fun m => decide (m.DocID ≠ "") := by
  refine ⟨?_, ?_, ?_, ?_, ?_⟩
  · unfold RedisBus.onMessage
    by_cases hd : (unmarshal raw).bm.DocID = "" <;> simp [hd]
  · intro m hm
    unfold RedisBus.onMessage at hm
    by_cases hd : (unmarshal raw).bm.DocID = "" <;> simp [hd] at hm
    exact hm.symm
  · intro hd
    simp [RedisBus.onMessage, hd]
  · intro hz
    simp [RedisBus.onMessage, hz]
  · unfold RedisBus.Subscribe
    induction raws with
    | nil => rfl
    | cons x xs ih =>
        rw [List.map_cons, List.filter_cons, ← ih, List.filterMap_cons]
        by_cases hd : (unmarshal x).bm.DocID = "" <;> simp [RedisBus.onMessage, hd]

/-! ## Delivery order -/

/-- Non-blocking sends of the frames `bs`, in order, on a channel that is not
drained meanwhile: the channel takes the frames that fit, in order. -/
theorem trySend_foldl (cap : Nat) (bs : List Frame) (ch : List Frame) :
    bs.foldl (trySend cap) ch = ch ++ bs.take (cap - ch.length) := by
  induction bs generalizing ch with
  | nil => simp
  | cons b bs ih =>
      rw [List.foldl_cons, ih]
      by_cases hlt : ch.length < cap
      · rw [trySend_room cap ch b hlt]
        have hcap : cap - ch.length = (cap - (ch ++ [b]).length) + 1 := by
          simp only [List.length_append, List.length_singleton]
          omega
        rw [hcap, List.take_succ_cons, List.append_assoc]
        rfl
      · rw [trySend_full cap ch b (Nat.le_of_not_lt hlt)]
        have hz : cap - ch.length = 0 := by omega
        simp [hz]

theorem Room.BroadcastAll_nil (r : Room) (heap : Nat → Conn) :
    r.BroadcastAll [] heap = heap := rfl

theorem Room.BroadcastAll_cons (r : Room) (b : Frame) (bs : List Frame) (heap : Nat → Conn) :
    r.BroadcastAll (b :: bs) heap = r.BroadcastAll bs (r.Broadcast b heap) := rfl

/-- Successive broadcasts give a member the frames that fit in its queue, in
the order of the broadcasts. -/
theorem Room.BroadcastAll_mem (r : Room) (bs : List Frame) (heap : Nat → Conn) (d : Nat)
    (hnodup : r.clients.Nodup) (hd : d ∈ r.clients) :
    (r.BroadcastAll bs heap d).out = bs.foldl (trySend outCap) (heap d).out := by
  induction bs generalizing heap with
  | nil => rfl
  | cons b bs ih =>
      rw [Room.BroadcastAll_cons, ih, Room.Broadcast_mem r b heap d hnodup hd]
      rfl

theorem Hub.run_ops_append (h : Hub) (xs ys : List Op) : h.run (xs ++ ys) = (h.run xs).run ys := by
  simp [Hub.run, List.foldl_append]

theorem Hub.step_broadcast_eq (h : Hub) (c : Nat) (b : Frame) (hc : c < h.nextConn) :
    h.step (.broadcast c b) =
      { h with connAt := (h.roomAt (h.connAt c).rm).Broadcast b h.connAt } := by
  simp [Hub.step, hc]

theorem Hub.step_queueSave_eq (h : Hub) (c : Nat) (b : Frame) (hc : c < h.nextConn) :
    h.step (.queueSave c b) =
      { h with connAt := Function.update h.connAt c ((h.connAt c).QueueSave b) } := by
  simp [Hub.step, hc]

theorem Hub.step_read_eq (h : Hub) (c : Nat) (payload : Frame) :
    (h.step (.read c payload)).connAt = h.connAt ∧
    (h.step (.read c payload)).roomAt = h.roomAt ∧
    (h.step (.read c payload)).nextConn = h.nextConn := by
  simp only [Hub.step]
  split <;> exact ⟨rfl, rfl, rfl⟩

/-- What one read-loop iteration of connection `c` does to the hub, as far as
rooms and `out` queues go: the rooms stay, and the `out` queues are those the
one broadcast on the room of `c` leaves. -/
theorem Hub.run_readFrame_out (h : Hub) (c : Nat) (docID : String) (payload : Frame)
    (hc : c < h.nextConn) :
    (h.run (readFrame c docID payload)).roomAt = h.roomAt ∧
    (h.run (readFrame c docID payload)).nextConn = h.nextConn ∧
    ((h.run (readFrame c docID payload)).connAt c).rm = (h.connAt c).rm ∧
    ∀ e, ((h.run (readFrame c docID payload)).connAt e).out =
      ((h.roomAt (h.connAt c).rm).Broadcast payload h.connAt e).out := by
  obtain ⟨r1, r2, r3⟩ := Hub.step_read_eq h c payload
  have hrm := (Room.Broadcast_fields (h.roomAt (h.connAt c).rm) payload h.connAt c).2.2.1
  by_cases hs : isSnapshot payload = true
  · rw [Hub.run_readFrame_snapshot h c docID payload hs]
    generalize h.step (.read c payload) = g at r1 r2 r3
    have hcg : c < g.nextConn := by rw [r3]; exact hc
    have hb := Hub.step_broadcast_eq g c payload hcg
    generalize g.step (.broadcast c payload) = g2 at hb
    have hcg2 : c < g2.nextConn := by rw [hb]; exact hcg
    rw [Hub.step_queueSave_eq g2 c _ hcg2, hb]
    simp only [r1, r2, r3, true_and]
    refine ⟨?_, fun e => ?_⟩
    · simp only [Function.update_same, Conn.QueueSave]
      exact hrm
    · simp only [Function.update_apply]
      split
      · rename_i he
        subst he
        rfl
      · rfl
  · rw [Hub.run_readFrame_other h c docID payload hs, Hub.step_broadcast_eq h c payload hc]
    exact ⟨rfl, rfl, hrm, fun e => rfl⟩

/-- The frames read from one connection, in receive order, reach a member of
its room in that order, as many as fit in the member's queue. -/
theorem Hub.run_readFrames_out (frames : List Frame) (h : Hub) (c e : Nat) (docID : String)
    (hw : h.WF) (hc : c < h.nextConn) (he : e ∈ (h.roomAt (h.connAt c).rm).clients) :
    ((h.run (frames.flatMap (readFrame c docID))).connAt e).out =
      frames.foldl (trySend outCap) (h.connAt e).out := by
  induction frames generalizing h with
  | nil => rfl
  | cons f fs ih =>
      rw [List.flatMap_cons, Hub.run_ops_append]
      obtain ⟨h1, h2, h3, h4⟩ := Hub.run_readFrame_out h c docID f hc
      have hw1 : (h.run (readFrame c docID f)).WF := Hub.run_WF _ h hw
      rw [ih (h.run (readFrame c docID f)) hw1 (by rw [h2]; exact hc)
        (by rw [h1, h3]; exact he), h4 e,
        Room.Broadcast_mem _ f h.connAt e (hw.nodup _) he]
      rfl

/-- What one step does to the `out` queue of an existing connection: nothing,
or the frame it broadcasts appended at the tail, or the head frame taken off
by the write loop. -/
theorem Hub.step_out (h : Hub) (hw : h.WF) (op : Op) (e : Nat) (he : e < h.nextConn) :
    ((h.step op).connAt e).out = (h.connAt e).out ∨
    (∃ b, op.frame? = some b ∧ ((h.step op).connAt e).out = (h.connAt e).out ++ [b]) ∨
    ((h.step op).connAt e).out = (h.connAt e).out.drop 1 := by
  have hbc : ∀ (r : Room) (b : Frame), r.clients.Nodup →
      (r.Broadcast b h.connAt e).out = (h.connAt e).out ∨
      (r.Broadcast b h.connAt e).out = (h.connAt e).out ++ [b] := by
    intro r b hn
    by_cases hm : e ∈ r.clients
    · rw [Room.Broadcast_mem r b h.connAt e hn hm]
      by_cases hlt : (h.connAt e).out.length < outCap
      · exact Or.inr (trySend_room outCap _ b hlt)
      · exact Or.inl (trySend_full outCap _ b (Nat.le_of_not_lt hlt))
    · rw [Room.Broadcast_not_mem r b h.connAt e hm]
      exact Or.inl rfl
  cases op with
  | httpError status => exact Or.inl rfl
  | accept ok => exact Or.inl rfl
  | logError => exact Or.inl rfl
  | publish c m => exact Or.inl rfl
  | connect c docID =>
      refine Or.inl ?_
      simp only [Hub.step]
      split
      · rename_i hc
        have hne : e ≠ c := by omega
        simp only [Function.update_noteq hne]
        rw [(Hub.room_spec h docID).2.2.1]
      · rfl
  | read c payload =>
      refine Or.inl ?_
      simp only [Hub.step]
      split <;> rfl
  | broadcast c b =>
      simp only [Hub.step]
      split
      · rcases hbc (h.roomAt (h.connAt c).rm) b (hw.nodup _) with h1 | h1
        · exact Or.inl h1
        · exact Or.inr (Or.inl ⟨b, rfl, h1⟩)
      · exact Or.inl rfl
  | deliver m =>
      simp only [Hub.step, Hub.deliver]
      split
      · rename_i rm hrm
        rcases hbc (h.roomAt rm) m.Payload (hw.nodup _) with h1 | h1
        · exact Or.inl h1
        · exact Or.inr (Or.inl ⟨m.Payload, rfl, h1⟩)
      · exact Or.inl rfl
  | queueSave c b =>
      refine Or.inl ?_
      simp only [Hub.step]
      split
      · simp only [Function.update_apply]
        split
        · rename_i hec
          subst hec
          rfl
        · rfl
      · rfl
  | leave c =>
      refine Or.inl ?_
      simp only [Hub.step]
      split <;> rfl
  | close c =>
      refine Or.inl ?_
      simp only [Hub.step]
      split
      · simp only [Function.update_apply]
        split
        · rename_i hec
          subst hec
          rfl
        · rfl
      · rfl
  | readClosed c =>
      refine Or.inl ?_
      simp only [Hub.step]
      split
      · simp only [Function.update_apply]
        split
        · rename_i hec
          subst hec
          rfl
        · rfl
      · rfl
  | writeOut c =>
      simp only [Hub.step]
      split
      · simp only [Function.update_apply]
        split
        · rename_i hec
          subst hec
          exact Or.inr (Or.inr rfl)
        · exact Or.inl rfl
      · exact Or.inl rfl
  | saveRecv c now =>
      refine Or.inl ?_
      simp only [Hub.step]
      split
      · split
        · rfl
        · split
          · rfl
          · simp only [Function.update_apply]
            split
            · rename_i hec
              subst hec
              rfl
            · rfl
      · rfl
  | saveTimer c now saveDur =>
      refine Or.inl ?_
      simp only [Hub.step]
      split
      · split <;> rfl
      · rfl
  | saveDone c now =>
      refine Or.inl ?_
      simp only [Hub.step]
      split
      · split <;> rfl
      · rfl

/-- No step removes a connection. -/
theorem Hub.step_nextConn_le (h : Hub) (op : Op) : h.nextConn ≤ (h.step op).nextConn := by
  cases op with
  | connect c docID =>
      simp only [Hub.step]
      split
      · rename_i hc
        show h.nextConn ≤ c + 1
        omega
      · exact Nat.le_refl _
  | deliver m =>
      simp only [Hub.step, Hub.deliver]
      split <;> exact Nat.le_refl _
  | saveRecv c now =>
      simp only [Hub.step]
      split
      · split
        · exact Nat.le_refl _
        · split <;> exact Nat.le_refl _
      · exact Nat.le_refl _
  | saveTimer c now saveDur =>
      simp only [Hub.step]
      split
      · split <;> exact Nat.le_refl _
      · exact Nat.le_refl _
  | saveDone c now =>
      simp only [Hub.step]
      split
      · split <;> exact Nat.le_refl _
      · exact Nat.le_refl _
  | httpError status => exact Nat.le_refl _
  | accept ok => exact Nat.le_refl _
  | logError => exact Nat.le_refl _
  | publish c m => exact Nat.le_refl _
  | read c payload =>
      simp only [Hub.step]
      split <;> exact Nat.le_refl _
  | broadcast c b =>
      simp only [Hub.step]
      split <;> exact Nat.le_refl _
  | queueSave c b =>
      simp only [Hub.step]
      split <;> exact Nat.le_refl _
  | leave c =>
      simp only [Hub.step]
      split <;> exact Nat.le_refl _
  | close c =>
      simp only [Hub.step]
      split <;> exact Nat.le_refl _
  | readClosed c =>
      simp only [Hub.step]
      split <;> exact Nat.le_refl _
  | writeOut c =>
      simp only [Hub.step]
      split <;> exact Nat.le_refl _

theorem broadcastFrames_cons_some (op : Op) (ops : List Op) (b : Frame)
    (h : op.frame? = some b) : broadcastFrames (op :: ops) = b :: broadcastFrames ops := by
  simp [broadcastFrames, List.filterMap_cons, h]

theorem broadcastFrames_sublist_cons (op : Op) (ops : List Op) :
    (broadcastFrames ops).Sublist (broadcastFrames (op :: ops)) := by
  unfold broadcastFrames
  rw [List.filterMap_cons]
  split
  · exact List.Sublist.refl _
  · exact List.sublist_cons_self _ _

/-- Whatever the steps of the process, the `out` queue of a connection is at
every moment a FIFO window: what it held, followed by frames it accepted in
the order in which they were broadcast, less the frames the write loop has
taken off the head. -/
theorem Hub.run_out_fifo (ops : List Op) (h : Hub) (hw : h.WF) (e : Nat) (he : e < h.nextConn) :
    ∃ k acc, acc.Sublist (broadcastFrames ops) ∧
      ((h.run ops).connAt e).out = ((h.connAt e).out ++ acc).drop k := by
  induction ops generalizing h with
  | nil => exact ⟨0, [], List.Sublist.refl _, by simp [Hub.run]⟩
  | cons op ops ih =>
      obtain ⟨k, acc, hsub, hout⟩ := ih (h.step op) (Hub.step_WF h hw op)
        (Nat.lt_of_lt_of_le he (Hub.step_nextConn_le h op))
      have hrun : (h.run (op :: ops)) = (h.step op).run ops := rfl
      rw [hrun, hout]
      rcases Hub.step_out h hw op e he with h1 | ⟨b, hb, h1⟩ | h1
      · rw [h1]
        exact ⟨k, acc, hsub.trans (broadcastFrames_sublist_cons op ops), rfl⟩
      · rw [h1, List.append_assoc, List.singleton_append]
        refine ⟨k, b :: acc, ?_, rfl⟩
        rw [broadcastFrames_cons_some op ops b hb]
        exact hsub.cons₂ b
      · rw [h1]
        cases hq : (h.connAt e).out with
        | nil =>
            exact ⟨k, acc, hsub.trans (broadcastFrames_sublist_cons op ops), by simp⟩
        | cons x xs =>
            refine ⟨k + 1, acc, hsub.trans (broadcastFrames_sublist_cons op ops), ?_⟩
            simp [List.drop_one]

/-- A connection that `ServeWS` has just attached is a member of its room. -/
theorem Hub.connect_member (h : Hub) (docID : String) :
    h.nextConn ∈ ((h.step (.connect h.nextConn docID)).roomAt
      ((h.step (.connect h.nextConn docID)).connAt h.nextConn).rm).clients := by
  simp only [Hub.step, if_true, Function.update_same, NewConn]
  exact (Room.mem_Join _ _ _).mpr (Or.inr rfl)

/-- C11: broadcast delivery. For a room with distinct members, a member `d`
whose `out` queue holds fewer than 256 frames is left by `Room.Broadcast` with
exactly one copy of the frame, unmodified, appended at the tail of its queue
and nothing else changed; successive broadcasts on the room leave in the queue
of a member the frames that fit, in the order of the broadcasts. In every hub
reached from `NewHub` the broadcast performed by the read loop of connection
`c` appends the frame to the queue of every member `e` of the room of `c` that
has room, `e = c` included; a connection that has just been attached is a
member of its room; the frames read from one connection reach the queue of a
member in receive order, as many as fit; and whatever steps the process takes,
the queue of a connection is what it held followed by frames it accepted, in
the order in which they were broadcast, less the frames the write loop has
taken off its head. -/
theorem broadcast_delivery (r : Room) (b : Frame) (heap : Nat → Conn) (d : Nat)
    (hkeys : r.clients.Nodup) (hd : d ∈ r.clients) (hroom : (heap d).out.length < 256) :
    r.Broadcast b heap d = { heap d with out := (heap d).out ++ [b] } ∧
    (∀ bs : List Frame, (r.BroadcastAll bs heap d).out =
        (heap d).out ++ bs.take (256 - (heap d).out.length)) ∧
    (∀ ops c e f, c < (NewHub.run ops).nextConn →
        e ∈ ((NewHub.run ops).roomAt ((NewHub.run ops).connAt c).rm).clients →
        ((NewHub.run ops).connAt e).out.length < 256 →
        ((NewHub.run ops).step (.broadcast c f)).connAt e =
          { (NewHub.run ops).connAt e with out := ((NewHub.run ops).connAt e).out ++ [f] }) ∧
    (∀ ops docID, (NewHub.run ops).nextConn ∈
        (((NewHub.run ops).step (.connect (NewHub.run ops).nextConn docID)).roomAt
          (((NewHub.run ops).step (.connect (NewHub.run ops).nextConn docID)).connAt
            (NewHub.run ops).nextConn).rm).clients) ∧
    (∀ ops c e docID (frames : List Frame), c < (NewHub.run ops).nextConn →
        e ∈ ((NewHub.run ops).roomAt ((NewHub.run ops).connAt c).rm).clients →
        (((NewHub.run ops).run (frames.flatMap (readFrame c docID))).connAt e).out =
          ((NewHub.run ops).connAt e).out
            ++ frames.take (256 - ((NewHub.run ops).connAt e).out.length)) ∧
    (∀ ops later e, e < (NewHub.run ops).nextConn →
        ∃ k acc, acc.Sublist (broadcastFrames later) ∧
          (((NewHub.run ops).run later).connAt e).out =
            (((NewHub.run ops).connAt e).out ++ acc).drop k) := by
  refine ⟨?_, ?_, ?_, ?_, ?_, ?_⟩
  · rw [Room.Broadcast_mem r b heap d hkeys hd, trySend_room outCap _ b hroom]
  · intro bs
    rw [Room.BroadcastAll_mem r bs heap d hkeys hd, trySend_foldl]
    rfl
  · intro ops c e f hc he hlt
    have hw := Hub.run_WF ops NewHub NewHub_WF
    rw [Hub.step_broadcast_eq _ c f hc]
    show Room.Broadcast _ f _ e = _
    rw [Room.Broadcast_mem _ f _ e (hw.nodup _) he, trySend_room outCap _ f hlt]
  · intro ops docID
    exact Hub.connect_member _ docID
  · intro ops c e docID frames hc he
    have hw := Hub.run_WF ops NewHub NewHub_WF
    rw [Hub.run_readFrames_out frames _ c e docID hw hc he, trySend_foldl]
    rfl
  · intro ops later e he
    exact Hub.run_out_fifo later _ (Hub.run_WF ops NewHub NewHub_WF) e he

theorem broadcast_delivery_witness :
    Room.Broadcast { clients := [0, 1] } [1, 255] idleClients 1 =
      { idleClients 1 with out := (idleClients 1).out ++ [[1, 255]] } ∧
    (∀ bs : List Frame, (Room.BroadcastAll { clients := [0, 1] } bs idleClients 1).out =
        (idleClients 1).out ++ bs.take (256 - (idleClients 1).out.length)) ∧
    (∀ ops c e f, c < (NewHub.run ops).nextConn →
        e ∈ ((NewHub.run ops).roomAt ((NewHub.run ops).connAt c).rm).clients →
        ((NewHub.run ops).connAt e).out.length < 256 →
        ((NewHub.run ops).step (.broadcast c f)).connAt e =
          { (NewHub.run ops).connAt e with out := ((NewHub.run ops).connAt e).out ++ [f] }) ∧
    (∀ ops docID, (NewHub.run ops).nextConn ∈
        (((NewHub.run ops).step (.connect (NewHub.run ops).nextConn docID)).roomAt
          (((NewHub.run ops).step (.connect (NewHub.run ops).nextConn docID)).connAt
            (NewHub.run ops).nextConn).rm).clients) ∧
    (∀ ops c e docID (frames : List Frame), c < (NewHub.run ops).nextConn →
        e ∈ ((NewHub.run ops).roomAt ((NewHub.run ops).connAt c).rm).clients →
        (((NewHub.run ops).run (frames.flatMap (readFrame c docID))).connAt e).out =
          ((NewHub.run ops).connAt e).out
            ++ frames.take (256 - ((NewHub.run ops).connAt e).out.length)) ∧
    (∀ ops later e, e < (NewHub.run ops).nextConn →
        ∃ k acc, acc.Sublist (broadcastFrames later) ∧
          (((NewHub.run ops).run later).connAt e).out =
            (((NewHub.run ops).connAt e).out ++ acc).drop k) :=
  broadcast_delivery { clients := [0, 1] } [1, 255] idleClients 1 (by decide) (by decide)
    (by decide)

/-- The scenario of section 8 of the specification: two clients join `doc1`
and client 0 sends the frame `[1, 0xFF]`; the `out` queue of client 1 receives
the frame and no `SaveDoc` call is issued. -/
theorem nonSnapshot_forwarded_not_saved :
    ((NewHub.run ([.accept true, .connect 0 "doc1", .accept true, .connect 1 "doc1"]
        ++ readFrame 0 "doc1" [1, 0xFF])).connAt 1).out = [[1, 0xFF]] ∧
    (NewHub.run ([.accept true, .connect 0 "doc1", .accept true, .connect 1 "doc1"]
        ++ readFrame 0 "doc1" [1, 0xFF])).db = [] ∧
    ((NewHub.run ([.accept true, .connect 0 "doc1", .accept true, .connect 1 "doc1"]
        ++ readFrame 0 "doc1" [1, 0xFF])).connAt 0).saveQ = [] := by
  decide

/-- C12: missing document identifier. For a request whose `docId` query value
is absent or empty, whatever the upgrade would have answered and whatever the
client would have sent, `ServeWS` performs the single step `http.Error` with
status 400 and returns: the socket is not upgraded, no connection is created
or joined to a room, nothing is published, broadcast or queued for saving, and
the hub (registry, rooms, connections, save loops and `SaveDoc` calls) is left
exactly as it was. -/
theorem missing_docid_rejected (v : Option String) (hv : v = none ∨ v = some "")
    (c : Nat) (acceptOk : Bool) (frames : List Frame) (h : Hub) :
    ServeWS c (queryGet v) acceptOk frames = [.httpError 400] ∧
    (∀ ok, Op.accept ok ∉ ServeWS c (queryGet v) acceptOk frames) ∧
    (∀ e d, Op.connect e d ∉ ServeWS c (queryGet v) acceptOk frames) ∧
    (∀ e m, Op.publish e m ∉ ServeWS c (queryGet v) acceptOk frames) ∧
    (∀ e f, Op.queueSave e f ∉ ServeWS c (queryGet v) acceptOk frames) ∧
    h.run (ServeWS c (queryGet v) acceptOk frames) = h := by
  have hq : queryGet v = "" := by
    rcases hv with rfl | rfl <;> rfl
  have hs : ServeWS c (queryGet v) acceptOk frames = [.httpError 400] := by
    simp [ServeWS, hq]
  rw [hs]
  refine ⟨rfl, ?_, ?_, ?_, ?_, rfl⟩ <;> intros <;> simp

theorem missing_docid_rejected_witness :
    ServeWS 0 (queryGet none) true [[3, 1]] = [.httpError 400] ∧
    (∀ ok, Op.accept ok ∉ ServeWS 0 (queryGet none) true [[3, 1]]) ∧
    (∀ e d, Op.connect e d ∉ ServeWS 0 (queryGet none) true [[3, 1]]) ∧
    (∀ e m, Op.publish e m ∉ ServeWS 0 (queryGet none) true [[3, 1]]) ∧
    (∀ e f, Op.queueSave e f ∉ ServeWS 0 (queryGet none) true [[3, 1]]) ∧
    NewHub.run (ServeWS 0 (queryGet none) true [[3, 1]]) = NewHub :=
  missing_docid_rejected none (Or.inl rfl) 0 true [[3, 1]] NewHub

/-! ## The rate limiter -/

theorem ratelimit.Limiter.Middleware_params (r : ratelimit.Limiter) (req : ratelimit.Request) :
    (r.Middleware req).1.max = r.max ∧ (r.Middleware req).1.per = r.per := by
  unfold ratelimit.Limiter.Middleware
  simp only
  split <;> exact ⟨rfl, rfl⟩

/-- A request leaves the buckets of the other addresses as they were. -/
theorem ratelimit.Limiter.Middleware_other (r : ratelimit.Limiter) (req : ratelimit.Request)
    (ip : String) (hip : ip ≠ req.ip) : (r.Middleware req).1.buckets ip = r.buckets ip := by
  unfold ratelimit.Limiter.Middleware
  simp only
  split <;> exact Function.update_noteq hip _ _

/-- The handler in terms of the bucket it works on. -/
theorem ratelimit.Limiter.Middleware_current (r : ratelimit.Limiter) (req : ratelimit.Request)
    (ts tok : Int) (hcur : r.current req = { ts := ts, tokens := tok }) :
    (r.Middleware req).1.buckets req.ip =
        some { ts := ts, tokens := if tok ≤ 0 then tok else tok - 1 } ∧
    (r.Middleware req).2 = if tok ≤ 0 then .httpError 429 else .next := by
  unfold ratelimit.Limiter.Middleware
  simp only [hcur]
  by_cases h : tok ≤ 0
  · simp [h]
  · simp [h]

/-- The handler on a request that starts a window. -/
theorem ratelimit.Limiter.Middleware_opens (r : ratelimit.Limiter) (req : ratelimit.Request)
    (hopen : r.startsWindow req = true) :
    (r.Middleware req).1.buckets req.ip =
        some { ts := req.now, tokens := if r.max ≤ 0 then r.max else r.max - 1 } ∧
    (r.Middleware req).2 = if r.max ≤ 0 then .httpError 429 else .next := by
  apply ratelimit.Limiter.Middleware_current
  unfold ratelimit.Limiter.current
  cases r.buckets req.ip with
  | none => rfl
  | some b0 => simp [hopen]

/-- The handler on a request that falls in the window of its bucket. -/
theorem ratelimit.Limiter.Middleware_within (r : ratelimit.Limiter) (req : ratelimit.Request)
    (ts tok : Int) (hb : r.buckets req.ip = some { ts := ts, tokens := tok })
    (hin : req.since - ts ≤ r.per) :
    (r.Middleware req).1.buckets req.ip =
        some { ts := ts, tokens := if tok ≤ 0 then tok else tok - 1 } ∧
    (r.Middleware req).2 = if tok ≤ 0 then .httpError 429 else .next := by
  apply ratelimit.Limiter.Middleware_current
  have hnot : r.startsWindow req = false := by
    simp only [ratelimit.Limiter.startsWindow, hb, decide_eq_false_iff_not, not_lt]
    exact hin
  simp [ratelimit.Limiter.current, hb, hnot]

theorem ratelimit.Limiter.serve_nil (r : ratelimit.Limiter) : r.serve [] = (r, []) := rfl

theorem ratelimit.Limiter.serve_cons (r : ratelimit.Limiter) (req : ratelimit.Request)
    (reqs : List ratelimit.Request) :
    r.serve (req :: reqs) =
      (((r.Middleware req).1.serve reqs).1,
        (req, (r.Middleware req).2) :: ((r.Middleware req).1.serve reqs).2) := rfl

theorem ratelimit.Limiter.serve_params (reqs : List ratelimit.Request) (r : ratelimit.Limiter) :
    (r.serve reqs).1.max = r.max ∧ (r.serve reqs).1.per = r.per := by
  induction reqs generalizing r with
  | nil => exact ⟨rfl, rfl⟩
  | cons req reqs ih =>
      rw [ratelimit.Limiter.serve_cons]
      obtain ⟨h1, h2⟩ := ih (r.Middleware req).1
      obtain ⟨h3, h4⟩ := ratelimit.Limiter.Middleware_params r req
      exact ⟨h1.trans h3, h2.trans h4⟩

theorem ratelimit.firstMax_succ (tok : Int) (n : Nat) :
    ratelimit.firstMax tok (n + 1) =
      (if tok ≤ 0 then ratelimit.Verdict.httpError 429 else ratelimit.Verdict.next)
        :: ratelimit.firstMax (if tok ≤ 0 then tok else tok - 1) n := by
  unfold ratelimit.firstMax
  rw [List.range_succ_eq_map, List.map_cons, List.map_map]
  congr 1
  · by_cases h : tok ≤ 0
    · have : ¬ ((0 : Nat) : Int) < tok := by omega
      simp [h, this]
    · have : ((0 : Nat) : Int) < tok := by omega
      simp [h, this]
  · apply List.map_congr_left
    intro k _
    simp only [Function.comp, Nat.succ_eq_add_one, Nat.cast_add, Nat.cast_one]
    by_cases h : tok ≤ 0
    · have h1 : ¬ (k : Int) + 1 < tok := by omega
      have h2 : ¬ (k : Int) < tok := by omega
      simp [h, h1, h2]
    · by_cases h1 : (k : Int) + 1 < tok
      · have h2 : (k : Int) < tok - 1 := by omega
        simp [h, h1, h2]
      · have h2 : ¬ (k : Int) < tok - 1 := by omega
        simp [h, h1, h2]

/-- Within the window of a bucket that holds `tok` tokens, the requests of its
address are passed on while tokens remain and answered with 429 afterwards. -/
theorem ratelimit.Limiter.serve_window (rs : List ratelimit.Request) (r : ratelimit.Limiter)
    (ip : String) (ts tok : Int) (hb : r.buckets ip = some { ts := ts, tokens := tok })
    (hwin : ∀ q ∈ rs, q.ip = ip → q.since - ts ≤ r.per) :
    ratelimit.verdictsOf ip (r.serve rs).2 =
      ratelimit.firstMax tok (rs.filter fun q => decide (q.ip = ip)).length := by
  induction rs generalizing r tok with
  | nil => rfl
  | cons q rs ih =>
      rw [ratelimit.Limiter.serve_cons]
      have hper := (ratelimit.Limiter.Middleware_params r q).2
      have hwin1 : ∀ x ∈ rs, x.ip = ip → x.since - ts ≤ (r.Middleware q).1.per := by
        intro x hx hxip
        rw [hper]
        exact hwin x (List.mem_cons_of_mem _ hx) hxip
      by_cases hq : q.ip = ip
      · subst hq
        obtain ⟨h1, h2⟩ := ratelimit.Limiter.Middleware_within r q ts tok hb
          (hwin q (List.mem_cons_self _ _) rfl)
        have := ih (r.Middleware q).1 _ h1 hwin1
        simp only [ratelimit.verdictsOf, List.filter_cons, decide_True, if_true, List.map_cons,
          List.length_cons] at this ⊢
        rw [this, ratelimit.firstMax_succ, h2]
      · have hb1 : (r.Middleware q).1.buckets ip = some { ts := ts, tokens := tok } := by
          rw [ratelimit.Limiter.Middleware_other r q ip (fun h => hq h.symm)]
          exact hb
        have := ih (r.Middleware q).1 tok hb1 hwin1
        simp only [ratelimit.verdictsOf, List.filter_cons, hq, decide_False] at this ⊢
        simpa using this

/-- With a non-negative `max` no bucket ever holds a negative number of
tokens. -/
theorem ratelimit.Limiter.serve_nonneg (reqs : List ratelimit.Request) (r : ratelimit.Limiter)
    (hmax : 0 ≤ r.max) (hr : ∀ ip b, r.buckets ip = some b → 0 ≤ b.tokens) :
    ∀ ip b, (r.serve reqs).1.buckets ip = some b → 0 ≤ b.tokens := by
  induction reqs generalizing r with
  | nil => exact hr
  | cons req reqs ih =>
      rw [ratelimit.Limiter.serve_cons]
      refine ih (r.Middleware req).1 ?_ ?_
      · rw [(ratelimit.Limiter.Middleware_params r req).1]
        exact hmax
      · intro ip b hb
        by_cases hip : ip = req.ip
        · subst hip
          by_cases hopen : r.startsWindow req = true
          · rw [(ratelimit.Limiter.Middleware_opens r req hopen).1] at hb
            simp only [Option.some.injEq] at hb
            rw [← hb]
            show 0 ≤ (if r.max ≤ 0 then r.max else r.max - 1)
            split <;> omega
          · cases hold : r.buckets req.ip with
            | none => simp [ratelimit.Limiter.startsWindow, hold] at hopen
            | some b0 =>
                have hin : req.since - b0.ts ≤ r.per := by
                  simpa [ratelimit.Limiter.startsWindow, hold] using hopen
                rw [(ratelimit.Limiter.Middleware_within r req b0.ts b0.tokens hold hin).1] at hb
                simp only [Option.some.injEq] at hb
                rw [← hb]
                have := hr _ b0 hold
                show 0 ≤ (if b0.tokens ≤ 0 then b0.tokens else b0.tokens - 1)
                split <;> omega
        · rw [ratelimit.Limiter.Middleware_other r req ip hip] at hb
          exact hr ip b hb

/-- The verdicts of one window, spelled out: `max` requests passed on, or all
of them when there are fewer, then status 429 for the others. -/
theorem ratelimit.firstMax_eq_replicate (n : Nat) (tok : Int) :
    ratelimit.firstMax tok n =
      List.replicate (min n tok.toNat) ratelimit.Verdict.next
        ++ List.replicate (n - tok.toNat) (ratelimit.Verdict.httpError 429) := by
  induction n generalizing tok with
  | zero => simp [ratelimit.firstMax]
  | succ n ih =>
      rw [ratelimit.firstMax_succ, ih]
      by_cases h : tok ≤ 0
      · have h0 : tok.toNat = 0 := by omega
        simp [h, h0, List.replicate_succ]
      · have h1 : (tok - 1).toNat + 1 = tok.toNat := by omega
        have h2 : min (n + 1) tok.toNat = min n (tok - 1).toNat + 1 := by omega
        have h3 : n + 1 - tok.toNat = n - (tok - 1).toNat := by omega
        simp [h, h2, h3, List.replicate_succ]

/-- C13: the rate limiter admits `max` requests per window. For a limiter
built by `New(max, per)` with `max ≥ 0`, in any state it has reached, let a
request of some address start a window and let every later request of that
address come no more than `per` after the window start. Then, whatever the
requests of other addresses in between, the requests of the address are passed
to the next handler while their rank in the window is below `max` and every
further one is answered with status 429 without reaching the next handler:
the verdicts are `max` times `next` (or as many as there are requests) followed
by 429s. A request never changes the bucket of another address, and no bucket
of the limiter ever holds a negative number of tokens. -/
theorem limiter_admits_max (max per : Int) (hmax : 0 ≤ max)
    (before : List ratelimit.Request) (r0 : ratelimit.Request) (rs : List ratelimit.Request)
    (hopen : ((ratelimit.New max per).serve before).1.startsWindow r0 = true)
    (hwin : ∀ q ∈ rs, q.ip = r0.ip → q.since - r0.now ≤ per) :
    ratelimit.verdictsOf r0.ip
        ((((ratelimit.New max per).serve before).1.serve (r0 :: rs)).2) =
      ratelimit.firstMax max ((r0 :: rs).filter fun q => decide (q.ip = r0.ip)).length ∧
    (∀ n, ratelimit.firstMax max n =
      List.replicate (min n max.toNat) ratelimit.Verdict.next
        ++ List.replicate (n - max.toNat) (ratelimit.Verdict.httpError 429)) ∧
    (∀ (l : ratelimit.Limiter) (req : ratelimit.Request) (ip : String), ip ≠ req.ip →
      (l.Middleware req).1.buckets ip = l.buckets ip) ∧
    (∀ reqs ip b, ((ratelimit.New max per).serve reqs).1.buckets ip = some b →
      0 ≤ b.tokens) := by
  refine ⟨?_, fun n => ratelimit.firstMax_eq_replicate n max,
    fun l req ip hip => ratelimit.Limiter.Middleware_other l req ip hip, ?_⟩
  · obtain ⟨hm, hp⟩ := ratelimit.Limiter.serve_params before (ratelimit.New max per)
    generalize ((ratelimit.New max per).serve before).1 = l at hopen hm hp
    have hm1 : l.max = max := hm
    have hp1 : l.per = per := hp
    obtain ⟨h1, h2⟩ := ratelimit.Limiter.Middleware_opens l r0 hopen
    have hper := (ratelimit.Limiter.Middleware_params l r0).2
    have hw := ratelimit.Limiter.serve_window rs (l.Middleware r0).1 r0.ip r0.now _ h1
      (by intro q hq hip; rw [hper, hp1]; exact hwin q hq hip)
    rw [ratelimit.Limiter.serve_cons]
    simp only [ratelimit.verdictsOf, List.filter_cons, decide_True, if_true, List.map_cons,
      List.length_cons] at hw ⊢
    rw [hw, ratelimit.firstMax_succ, h2, hm1]
  · intro reqs ip b hb
    exact ratelimit.Limiter.serve_nonneg reqs (ratelimit.New max per) hmax
      (by intro ip b h; simp [ratelimit.New] at h) ip b hb

theorem limiter_admits_max_witness :
    ratelimit.verdictsOf "10.0.0.1"
        ((((ratelimit.New 2 10).serve []).1.serve
          ({ ip := "10.0.0.1", since := 0, now := 0 } :: threeInWindow)).2) =
      ratelimit.firstMax 2
        (({ ip := "10.0.0.1", since := 0, now := 0 } :: threeInWindow).filter
          fun q => decide (q.ip = "10.0.0.1")).length ∧
    (∀ n, ratelimit.firstMax 2 n =
      List.replicate (min n (2 : Int).toNat) ratelimit.Verdict.next
        ++ List.replicate (n - (2 : Int).toNat) (ratelimit.Verdict.httpError 429)) ∧
    (∀ (l : ratelimit.Limiter) (req : ratelimit.Request) (ip : String), ip ≠ req.ip →
      (l.Middleware req).1.buckets ip = l.buckets ip) ∧
    (∀ reqs ip b, ((ratelimit.New 2 10).serve reqs).1.buckets ip = some b →
      0 ≤ b.tokens) :=
  limiter_admits_max 2 10 (by decide) [] { ip := "10.0.0.1", since := 0, now := 0 }
    threeInWindow (by decide) (by decide)

/-- A limiter that grants two tokens per window of 10ns, on three requests of
one address in one window and one request of another address in between: the
third request of the first address is answered with 429, the others are passed
on. -/
theorem threeInWindow_verdicts :
    ((ratelimit.New 2 10).serve
        ({ ip := "10.0.0.1", since := 0, now := 0 } :: threeInWindow)).2.map Prod.snd =
      [.next, .next, .next, .httpError 429] := by
  decide

/-! ## The debounce delay -/

/-- The cases of a `select` iteration that can be taken, with the state each
leaves. -/
theorem SaveLoop.step_spec (s : SaveLoop) (ev : SaveEvent) (r : SaveLoop × List SaveCall)
    (h : s.step ev = some r) :
    s.exited = false ∧ s.clock ≤ ev.now ∧
    ((∃ b, ev = .recv ev.now b ∧
        r = ({ s with latest := b, timer := some (ev.now + debounceDur), clock := ev.now }, [])) ∨
      ((ev = .closed ev.now ∨ ev = .done ev.now) ∧
        r = ({ s with clock := ev.now, exited := true }, [])) ∨
      (∃ saveDur e, ev = .timerC ev.now saveDur ∧ s.timer = some e ∧ e ≤ ev.now ∧
        ((∃ b, s.latest = some b ∧
            r = ({ s with latest := none, timer := some (ev.now + saveDur + debounceDur),
                          clock := ev.now + saveDur },
                 [{ time := ev.now, id := s.docID, blob := b }])) ∨
          (s.latest = none ∧
            r = ({ s with timer := some (ev.now + debounceDur), clock := ev.now }, []))))) := by
  unfold SaveLoop.step at h
  split at h
  · exact absurd h (by simp)
  · rename_i hguard
    simp only [not_or, Nat.not_lt, Bool.not_eq_true] at hguard
    refine ⟨hguard.1, hguard.2, ?_⟩
    cases ev with
    | recv now b =>
        simp only [Option.some.injEq] at h
        exact Or.inl ⟨b, rfl, h.symm⟩
    | closed now =>
        simp only [Option.some.injEq] at h
        exact Or.inr (Or.inl ⟨Or.inl rfl, h.symm⟩)
    | done now =>
        simp only [Option.some.injEq] at h
        exact Or.inr (Or.inl ⟨Or.inr rfl, h.symm⟩)
    | timerC now saveDur =>
        cases ht : s.timer with
        | none => simp [ht] at h
        | some e =>
            simp only [ht] at h
            split at h
            · exact absurd h (by simp)
            · rename_i hexp
              refine Or.inr (Or.inr ⟨saveDur, e, rfl, rfl, Nat.not_lt.mp hexp, ?_⟩)
              cases hl : s.latest with
              | none =>
                  simp only [hl, Option.some.injEq] at h
                  exact Or.inr ⟨rfl, h.symm⟩
              | some b =>
                  simp only [hl, Option.some.injEq] at h
                  exact Or.inl ⟨b, rfl, h.symm⟩

/-- An iteration is taken no sooner than the loop came back to the `select`
and leaves the clock no earlier than its own instant. -/
theorem SaveLoop.step_clock (s : SaveLoop) (ev : SaveEvent) (r : SaveLoop × List SaveCall)
    (h : s.step ev = some r) : s.clock ≤ ev.now ∧ ev.now ≤ r.1.clock := by
  obtain ⟨-, hnow, hcase⟩ := SaveLoop.step_spec s ev r h
  refine ⟨hnow, ?_⟩
  rcases hcase with ⟨b, -, rfl⟩ | ⟨-, rfl⟩ | ⟨sd, e, -, -, -, ⟨b, -, rfl⟩ | ⟨-, rfl⟩⟩
  · exact Nat.le_refl _
  · exact Nat.le_refl _
  · exact Nat.le_add_right _ _
  · exact Nat.le_refl _

/-- A run over a concatenation is a run over the first part followed by a run
over the second. -/
theorem SaveLoop.run_split (s s2 : SaveLoop) (xs ys : List SaveEvent) (ws : List SaveCall)
    (h : s.run (xs ++ ys) = some (s2, ws)) :
    ∃ s1 w1 w2, s.run xs = some (s1, w1) ∧ s1.run ys = some (s2, w2) ∧ ws = w1 ++ w2 := by
  rw [SaveLoop.run_append] at h
  cases h1 : s.run xs with
  | none => simp [h1] at h
  | some r1 =>
      simp only [h1, Option.some_bind] at h
      cases h2 : r1.1.run ys with
      | none => simp [h2] at h
      | some r2 =>
          simp only [h2, Option.map_some', Option.some.injEq, Prod.mk.injEq] at h
          exact ⟨r1.1, r1.2, r2.2, rfl, by rw [← h.1]; exact h2, h.2.symm⟩

/-- The first iteration of a run, and the run that follows it. -/
theorem SaveLoop.run_cons_split (s s2 : SaveLoop) (ev : SaveEvent) (es : List SaveEvent)
    (ws : List SaveCall) (h : s.run (ev :: es) = some (s2, ws)) :
    ∃ s1 w1 w2, s.step ev = some (s1, w1) ∧ s1.run es = some (s2, w2) ∧ ws = w1 ++ w2 := by
  rw [SaveLoop.run_cons] at h
  cases h1 : s.step ev with
  | none => simp [h1] at h
  | some r1 =>
      simp only [h1, Option.some_bind] at h
      cases h2 : r1.1.run es with
      | none => simp [h2] at h
      | some r2 =>
          simp only [h2, Option.map_some', Option.some.injEq, Prod.mk.injEq] at h
          exact ⟨r1.1, r1.2, r2.2, rfl, by rw [← h.1]; exact h2, h.2.symm⟩

/-- Every iteration of a run is taken no sooner than the run started. -/
theorem SaveLoop.run_events_ge (es : List SaveEvent) (s s2 : SaveLoop) (ws : List SaveCall)
    (h : s.run es = some (s2, ws)) : ∀ ev ∈ es, s.clock ≤ ev.now := by
  induction es generalizing s ws with
  | nil => intro ev hev; simp at hev
  | cons e0 es ih =>
      obtain ⟨s1, w1, w2, hstep, hrest, -⟩ := SaveLoop.run_cons_split s s2 e0 es ws h
      obtain ⟨h0, h1⟩ := SaveLoop.step_clock s e0 (s1, w1) hstep
      intro ev hev
      rcases List.mem_cons.mp hev with rfl | hev
      · exact h0
      · exact Nat.le_trans (Nat.le_trans h0 h1) (ih s1 w2 hrest ev hev)

theorem recvTimes_nil : recvTimes [] = [] := rfl

theorem recvTimes_append (xs ys : List SaveEvent) :
    recvTimes (xs ++ ys) = recvTimes xs ++ recvTimes ys := by
  simp [recvTimes, List.filterMap_append]

theorem recvTimes_recv (now : Nat) (b : Option Frame) (es : List SaveEvent) :
    recvTimes (.recv now b :: es) = now :: recvTimes es := by
  simp [recvTimes, List.filterMap_cons]

theorem recvTimes_timerC (now saveDur : Nat) (es : List SaveEvent) :
    recvTimes (.timerC now saveDur :: es) = recvTimes es := by
  simp [recvTimes, List.filterMap_cons]

theorem recvTimes_closed (now : Nat) (es : List SaveEvent) :
    recvTimes (.closed now :: es) = recvTimes es := by
  simp [recvTimes, List.filterMap_cons]

theorem recvTimes_done (now : Nat) (es : List SaveEvent) :
    recvTimes (.done now :: es) = recvTimes es := by
  simp [recvTimes, List.filterMap_cons]

theorem mem_recvTimes (t : Nat) (es : List SaveEvent) (h : t ∈ recvTimes es) :
    ∃ b, SaveEvent.recv t b ∈ es := by
  simp only [recvTimes, List.mem_filterMap] at h
  obtain ⟨ev, hev, hm⟩ := h
  cases ev with
  | recv now b =>
      simp only [Option.some.injEq] at hm
      subst hm
      exact ⟨b, hev⟩
  | closed now => simp at hm
  | timerC now saveDur => simp at hm
  | done now => simp at hm

/-- In a run that starts with the timer armed no sooner than `debounceDur`
after each of the instants `ts` (and stopped when there is none), the timer
case is taken only after some payload was taken, and no sooner than
`debounceDur` after every payload taken before it. -/
theorem SaveLoop.run_timer_after_recvs (es : List SaveEvent) (s s2 : SaveLoop)
    (ws : List SaveCall) (ts : List Nat)
    (hnone : ts = [] → s.timer = none)
    (hts : ∀ t ∈ ts, t ≤ s.clock ∧ ∃ e, s.timer = some e ∧ t + debounceDur ≤ e)
    (hrun : s.run es = some (s2, ws)) :
    ∀ pre T saveDur post, es = pre ++ SaveEvent.timerC T saveDur :: post →
      ts ++ recvTimes pre ≠ [] ∧ ∀ t ∈ ts ++ recvTimes pre, t + debounceDur ≤ T := by
  induction es generalizing s ws ts with
  | nil =>
      intro pre T saveDur post heq
      simp at heq
  | cons e0 es ih =>
      obtain ⟨s1, w1, w2, hstep, hrest, -⟩ := SaveLoop.run_cons_split s s2 e0 es ws hrun
      obtain ⟨-, hnow, hcase⟩ := SaveLoop.step_spec s e0 (s1, w1) hstep
      intro pre T saveDur post heq
      cases pre with
      | nil =>
          simp only [List.nil_append, List.cons.injEq] at heq
          obtain ⟨he0, -⟩ := heq
          subst he0
          simp only [SaveEvent.now] at hcase hnow
          rcases hcase with ⟨b, hb, -⟩ | ⟨hb, -⟩ | ⟨sd, e, -, htimer, hle, -⟩
          · simp at hb
          · simp at hb
          · rw [recvTimes_nil, List.append_nil]
            refine ⟨fun hnil => ?_, fun t ht => ?_⟩
            · rw [hnone hnil] at htimer
              simp at htimer
            · obtain ⟨-, e1, he1, hle1⟩ := hts t ht
              rw [htimer] at he1
              simp only [Option.some.injEq] at he1
              omega
      | cons p pre1 =>
          simp only [List.cons_append, List.cons.injEq] at heq
          obtain ⟨hp, hes⟩ := heq
          subst hp
          have hrec : recvTimes (e0 :: pre1) = recvTimes [e0] ++ recvTimes pre1 := by
            rw [← recvTimes_append]
            rfl
          rw [hrec, ← List.append_assoc]
          refine ih s1 w2 (ts ++ recvTimes [e0]) ?_ ?_ hrest pre1 T saveDur post hes
          · intro hnil
            rcases hcase with ⟨b, hb, hr⟩ | ⟨hb, hr⟩ | ⟨sd, e, hb, htimer, hle, hr⟩
            · rw [hb, recvTimes_recv] at hnil
              simp at hnil
            · simp only [Prod.mk.injEq] at hr
              rw [hr.1]
              have hts0 : ts = [] := (List.append_eq_nil.mp hnil).1
              exact hnone hts0
            · have hts0 : ts = [] := (List.append_eq_nil.mp hnil).1
              rw [hnone hts0] at htimer
              simp at htimer
          · intro t ht
            rcases hcase with ⟨b, hb, hr⟩ | ⟨hb, hr⟩ | ⟨sd, e, hb, htimer, hle, hr⟩
            · simp only [Prod.mk.injEq] at hr
              rw [hr.1]
              rw [hb, recvTimes_recv, recvTimes_nil] at ht
              rcases List.mem_append.mp ht with ht | ht
              · have := (hts t ht).1
                exact ⟨by show t ≤ e0.now; omega, _, rfl, by omega⟩
              · simp only [List.mem_singleton] at ht
                subst ht
                exact ⟨Nat.le_refl _, _, rfl, Nat.le_refl _⟩
            · simp only [Prod.mk.injEq] at hr
              rw [hr.1]
              have htm : t ∈ ts := by
                rcases hb with hb | hb
                · rw [hb, recvTimes_closed, recvTimes_nil, List.append_nil] at ht
                  exact ht
                · rw [hb, recvTimes_done, recvTimes_nil, List.append_nil] at ht
                  exact ht
              obtain ⟨h1, e1, he1, hle1⟩ := hts t htm
              exact ⟨by show t ≤ e0.now; omega, e1, he1, hle1⟩
            · have htm : t ∈ ts := by
                rw [hb, recvTimes_timerC, recvTimes_nil, List.append_nil] at ht
                exact ht
              obtain ⟨h1, e1, he1, hle1⟩ := hts t htm
              rcases hr with ⟨b, -, hr⟩ | ⟨-, hr⟩
              · simp only [Prod.mk.injEq] at hr
                rw [hr.1]
                exact ⟨by show t ≤ e0.now + sd; omega, _, rfl, by omega⟩
              · simp only [Prod.mk.injEq] at hr
                rw [hr.1]
                exact ⟨by show t ≤ e0.now; omega, _, rfl, by omega⟩

/-- The iterations that follow a given one in a run are taken no sooner than
it. -/
theorem SaveLoop.run_later_ge (s s2 : SaveLoop) (pre post : List SaveEvent) (ev : SaveEvent)
    (ws : List SaveCall) (h : s.run (pre ++ ev :: post) = some (s2, ws)) :
    ∀ ev2 ∈ post, ev.now ≤ ev2.now := by
  obtain ⟨s1, w1, w2, -, h2, -⟩ := SaveLoop.run_split s s2 pre (ev :: post) ws h
  obtain ⟨sa, wa, wb, hstep, hrest, -⟩ := SaveLoop.run_cons_split s1 s2 ev post w2 h2
  intro ev2 hev2
  exact Nat.le_trans (SaveLoop.step_clock s1 ev (sa, wa) hstep).2
    (SaveLoop.run_events_ge post sa s2 wb hrest ev2 hev2)

/-- No iteration follows the one that takes `ctx.Done()`. -/
theorem SaveLoop.run_done_last (s s2 : SaveLoop) (pre post : List SaveEvent) (tc : Nat)
    (ws : List SaveCall) (h : s.run (pre ++ SaveEvent.done tc :: post) = some (s2, ws)) :
    post = [] := by
  obtain ⟨s1, w1, w2, -, h2, -⟩ := SaveLoop.run_split s s2 pre (.done tc :: post) ws h
  obtain ⟨sa, wa, wb, hstep, hrest, -⟩ := SaveLoop.run_cons_split s1 s2 (.done tc) post w2 h2
  obtain ⟨-, -, hcase⟩ := SaveLoop.step_spec s1 (.done tc) (sa, wa) hstep
  have hexit : sa.exited = true := by
    rcases hcase with ⟨b, hb, -⟩ | ⟨-, hr⟩ | ⟨sd, e, hb, -⟩
    · simp [SaveEvent.now] at hb
    · simp only [Prod.mk.injEq] at hr
      rw [hr.1]
    · simp [SaveEvent.now] at hb
  cases post with
  | nil => rfl
  | cons p ps =>
      obtain ⟨sc, wc, wd, hstep2, -, -⟩ := SaveLoop.run_cons_split sa s2 p ps wb hrest
      have := (SaveLoop.step_spec sa p (sc, wc) hstep2).1
      rw [hexit] at this
      exact absurd this (by simp)

/-- When each payload is taken less than `debounceDur` after the previous one,
every timer case of a run from the start of the loop comes at least
`debounceDur` after every payload of the run. -/
theorem SaveLoop.run_timer_after_burst (docID : String) (start : Nat) (es : List SaveEvent)
    (s : SaveLoop) (ws : List SaveCall)
    (hrun : (SaveLoop.init docID start).run es = some (s, ws))
    (hgap : (recvTimes es).Chain' (fun a b => b < a + debounceDur)) :
    ∀ pre T saveDur post, es = pre ++ SaveEvent.timerC T saveDur :: post →
      ∀ t ∈ recvTimes es, t + debounceDur ≤ T := by
  intro pre T saveDur post heq
  obtain ⟨hne, hpre⟩ := SaveLoop.run_timer_after_recvs es (SaveLoop.init docID start) s ws []
    (fun _ => rfl) (fun t ht => by simp at ht) hrun pre T saveDur post heq
  simp only [List.nil_append] at hne hpre
  have hrec : recvTimes es = recvTimes pre ++ recvTimes post := by
    rw [heq, recvTimes_append, recvTimes_timerC]
  have hpost : recvTimes post = [] := by
    cases hp : recvTimes post with
    | nil => rfl
    | cons t1 rest =>
        exfalso
        rw [hrec, hp] at hgap
        have hlast := (List.chain'_append.mp hgap).2.2 ((recvTimes pre).getLast hne)
          (by rw [List.getLast?_eq_getLast _ hne]; rfl) t1 (by simp)
        have h1 := hpre _ (List.getLast_mem hne)
        obtain ⟨b, hb⟩ := mem_recvTimes t1 post (by rw [hp]; simp)
        rw [heq] at hrun
        have h2 := SaveLoop.run_later_ge _ s pre post (.timerC T saveDur) ws hrun _ hb
        simp only [SaveEvent.now] at h2
        omega
  intro t ht
  rw [hrec, hpost, List.append_nil] at ht
  exact hpre t ht

/-- C14: the debounce postpones the write. In every run of the save loop from
its start: the timer case is taken only after some payload was taken from the
save queue, and at least `debounceDur` (250ms) after every payload taken
before it; every `SaveDoc` call is issued by the timer case that directly
follows the taking of the payload it writes, at least 250ms after that taking.
When moreover each payload is taken less than 250ms after the previous one,
however many there are, every `SaveDoc` call comes at least 250ms after the
last (hence every) payload of the run, and if `ctx.Done()` is taken less than
250ms after the last payload taken before it, no `SaveDoc` call is issued at
all. -/
theorem debounce_postpones_write (docID : String) (start : Nat) (es : List SaveEvent)
    (s : SaveLoop) (ws : List SaveCall)
    (hrun : (SaveLoop.init docID start).run es = some (s, ws)) :
    (∀ pre T saveDur post, es = pre ++ SaveEvent.timerC T saveDur :: post →
        recvTimes pre ≠ [] ∧ ∀ t ∈ recvTimes pre, t + debounceDur ≤ T) ∧
    (∀ w ∈ ws, ∃ pre t saveDur post,
        es = pre ++ [SaveEvent.recv t (some w.blob), SaveEvent.timerC w.time saveDur] ++ post ∧
        t + debounceDur ≤ w.time) ∧
    ((recvTimes es).Chain' (fun a b => b < a + debounceDur) →
      (∀ w ∈ ws, ∀ t ∈ recvTimes es, t + debounceDur ≤ w.time) ∧
      (∀ pre tc post, es = pre ++ SaveEvent.done tc :: post →
        (∀ t, (recvTimes pre).getLast? = some t → tc < t + debounceDur) → ws = [])) := by
  have hA := SaveLoop.run_timer_after_recvs es (SaveLoop.init docID start) s ws []
    (fun _ => rfl) (fun t ht => by simp at ht) hrun
  simp only [List.nil_append] at hA
  have hsrc : ∀ w ∈ ws, ∃ pre t saveDur post,
      es = pre ++ [SaveEvent.recv t (some w.blob), SaveEvent.timerC w.time saveDur] ++ post ∧
      t + debounceDur ≤ w.time := by
    intro w hw
    rcases (SaveLoop.run_flush_source es _ s ws hrun w hw).2 with
      ⟨pre, t, sd, post, hes, hle⟩ | ⟨hlat, -, -⟩
    · exact ⟨pre, t, sd, post, hes, hle⟩
    · simp [SaveLoop.init] at hlat
  have htimer : ∀ w ∈ ws, ∃ pre saveDur post,
      es = pre ++ SaveEvent.timerC w.time saveDur :: post := by
    intro w hw
    obtain ⟨pre, t, sd, post, hes, -⟩ := hsrc w hw
    exact ⟨pre ++ [SaveEvent.recv t (some w.blob)], sd, post, by simp [hes]⟩
  refine ⟨hA, hsrc, fun hgap => ?_⟩
  have hG := SaveLoop.run_timer_after_burst docID start es s ws hrun hgap
  refine ⟨?_, ?_⟩
  · intro w hw t ht
    obtain ⟨pre, sd, post, hes⟩ := htimer w hw
    exact hG pre w.time sd post hes t ht
  · intro pre tc post heq hcancel
    cases hws : ws with
    | nil => rfl
    | cons w rest =>
        exfalso
        have hw : w ∈ ws := by rw [hws]; simp
        obtain ⟨p1, sd, p2, hes⟩ := htimer w hw
        have hall := hG p1 w.time sd p2 hes
        have hpost : post = [] := by
          rw [heq] at hrun
          exact SaveLoop.run_done_last _ s pre post tc ws hrun
        subst hpost
        have hmem : SaveEvent.timerC w.time sd ∈ pre := by
          have : SaveEvent.timerC w.time sd ∈ es := by rw [hes]; simp
          rw [heq] at this
          simpa using this
        obtain ⟨q1, q2, hq⟩ := List.append_of_mem hmem
        have hes2 : es = q1 ++ SaveEvent.timerC w.time sd :: (q2 ++ [SaveEvent.done tc]) := by
          rw [heq, hq]
          simp
        have hle : w.time ≤ tc := by
          rw [hes2] at hrun
          have := SaveLoop.run_later_ge _ s q1 _ (.timerC w.time sd) ws hrun (.done tc) (by simp)
          simpa [SaveEvent.now] using this
        have hne1 : recvTimes q1 ≠ [] := (hA q1 w.time sd _ hes2).1
        have hne : recvTimes pre ≠ [] := by
          rw [hq, recvTimes_append]
          intro hnil
          exact hne1 (List.append_eq_nil.mp hnil).1
        have hlast := hcancel _ (List.getLast?_eq_getLast _ hne)
        have hin : (recvTimes pre).getLast hne ∈ recvTimes es := by
          rw [heq, recvTimes_append]
          exact List.mem_append_left _ (List.getLast_mem hne)
        have := hall _ hin
        omega

theorem debounce_postpones_write_witness :
    (∀ pre T saveDur post, burstOfTwo = pre ++ SaveEvent.timerC T saveDur :: post →
        recvTimes pre ≠ [] ∧ ∀ t ∈ recvTimes pre, t + debounceDur ≤ T) ∧
    (∀ w ∈ [({ time := 350 * Millisecond, id := "doc1", blob := [2] } : SaveCall)],
      ∃ pre t saveDur post,
        burstOfTwo =
          pre ++ [SaveEvent.recv t (some w.blob), SaveEvent.timerC w.time saveDur] ++ post ∧
        t + debounceDur ≤ w.time) ∧
    ((recvTimes burstOfTwo).Chain' (fun a b => b < a + debounceDur) →
      (∀ w ∈ [({ time := 350 * Millisecond, id := "doc1", blob := [2] } : SaveCall)],
        ∀ t ∈ recvTimes burstOfTwo, t + debounceDur ≤ w.time) ∧
      (∀ pre tc post, burstOfTwo = pre ++ SaveEvent.done tc :: post →
        (∀ t, (recvTimes pre).getLast? = some t → tc < t + debounceDur) →
        [({ time := 350 * Millisecond, id := "doc1", blob := [2] } : SaveCall)] = [])) :=
  debounce_postpones_write "doc1" 0 burstOfTwo
    { docID := "doc1", latest := none, timer := some (600 * Millisecond),
      clock := 350 * Millisecond, exited := false }
    [{ time := 350 * Millisecond, id := "doc1", blob := [2] }] (by decide)

/-- The gap hypothesis of the burst of two holds: 100ms is less than 250ms. -/
theorem burstOfTwo_within_window :
    (recvTimes burstOfTwo).Chain' (fun a b => b < a + debounceDur) := by
  simp [burstOfTwo, recvTimes, debounceDur, Millisecond]

end RealtimeDocs
